import Mathlib

/-!
# Verification of the VampNet iterative masked-token decoding engine

This file is a shallow embedding of the decoding engine implemented in
`src/vampnet/modules/transformer.py` (the `generate` method of `VampNet`,
together with the helper functions `mask_by_random_topk` and
`typical_filter`), and proofs of the behavioural properties stated in the
specification.

Modelling conventions:

* One batch row is modelled (`b = 1`); every tensor operation used by the
  engine acts row-wise, so the batch dimension is a product of independent
  copies of the model.
* A token grid of shape `(codebooks, time)` is a `List (List ℤ)` (one list
  per codebook channel).
* Float values that the engine only ever compares, orders or thresholds are
  modelled as exact rationals `ℚ`; `torch.inf` is modelled by `⊤` in
  `WithTop ℚ` and `-inf` by `⊥` in `WithBot ℚ`.
* `torch.log` is strictly increasing on `(0, ∞)` and maps `inf` to `inf`, and
  the Gumbel noise drawn by `gumbel_noise_like` is a finite float; hence for
  every property in this file (all of which depend only on the ordering of
  the perturbed confidences) the list of perturbed confidence values
  `log(probs) + temperature * noise` is taken directly as the input of the
  remasking model, one extended rational per position.
* Rational arithmetic is implemented through `mkRat`-based helpers (`qadd`,
  `qmul`, …) which are equal to the field operations of `ℚ` (bridging
  theorems below) but also reduce inside the kernel, so that concrete runs
  of the model can be evaluated by `decide`.
* The external collaborators (codec embedding, transformer scoring, softmax
  and the categorical draw of `torch.multinomial`) are modelled as explicit
  per-step oracle inputs: the sampled token and the perturbed confidence at
  each flattened position.  This matches §6 of the specification, which
  treats them as opaque collaborators of the decoding loop.
-/

namespace VampNetProof

/-! ## Kernel-computable rational arithmetic -/

/-- Exact rational addition, implemented with `mkRat` so that it reduces in
the kernel (the `+` of `ℚ` does not); `qadd_eq` below shows it is addition. -/
def qadd (a b : ℚ) : ℚ := mkRat (a.num * b.den + b.num * a.den) (a.den * b.den)

/-- Exact rational multiplication implemented with `mkRat`. -/
def qmul (a b : ℚ) : ℚ := mkRat (a.num * b.num) (a.den * b.den)

/-- Exact rational sum of a list, via `qadd`. -/
def qsum (l : List ℚ) : ℚ := l.foldr qadd 0

/-- Floor of a rational, as computed by `torch.floor`; kernel-computable form
of `Int.floor` (see `floorQ_eq`). -/
def floorQ (q : ℚ) : ℤ := q.num / q.den

/-- The schedule ratio `r = (i + 1) / sampling_steps` of one decoding step
(`transformer.py` line 216), as an exact rational. -/
def stepRatio (i samplingSteps : ℕ) : ℚ := mkRat ((i : ℤ) + 1) samplingSteps

/-- Ternary pointwise combination, as `torch.where(cond, a, b)` after the
binary condition has been zipped in. -/
def zipWith3 {α β γ δ : Type*} (f : α → β → γ → δ) :
    List α → List β → List γ → List δ
  | a :: as, b :: bs, c :: cs => f a b c :: zipWith3 f as bs cs
  | _, _, _ => []

/-! ## Multi-codebook flatten / unflatten -/

/-- Modelled from the spec (§4.2): `codebook_flatten` of `vampnet/util.py` is
not under `src/` (only its callers are), so it is modelled from the spec's
layout contract: the codebook and time axes are interleaved into one flat
axis with the channel varying fastest inside each time step, i.e. flat
position `t * C + c` holds channel `c` at time `t` (einops `"c t -> (t c)"`,
one batch row). -/
def codebook_flatten (z : List (List ℤ)) : List ℤ :=
  (List.range (z.length * z.headI.length)).map
    (fun j => (z.getD (j % z.length) []).getD (j / z.length) 0)

/-- Modelled from the spec (§4.2): `codebook_unflatten` of `vampnet/util.py`,
the exact inverse of `codebook_flatten`, failing (shape error) when the flat
length is not divisible by the requested codebook count. -/
def codebook_unflatten (flat : List ℤ) (nC : ℕ) : Option (List (List ℤ)) :=
  if 0 < nC ∧ nC ∣ flat.length then
    some ((List.range nC).map (fun c =>
      (List.range (flat.length / nC)).map (fun t => flat.getD (t * nC + c) 0)))
  else none

/-! ## Confidence-based remasking: `mask_by_random_topk` -/

/-- `mask_by_random_topk` (`transformer.py` lines 328–358).  The source
computes `confidence = log(probs) + temperature * gumbel_noise_like(probs)`,
sorts it ascending (line 346), reads the cutoff at 0-indexed sorted position
`num_to_mask` (`take_along_dim(sorted_confidence, num_to_mask)`, line 351),
and masks exactly the positions whose confidence is strictly below the
cutoff (line 355).  `torch.log` is a strictly increasing bijection of
`(0, ∞]` onto `(-∞, ∞]` and the Gumbel noise is finite, so the perturbed
confidence vector is modelled directly, one `WithTop ℚ` per flattened
position (`⊤` standing for `inf`, the value the engine assigns to unmasked
positions).  `take_along_dim` with a negative or out-of-range index raises,
modelled by `none`; `torch.sort`'s tie order is unspecified and the model
uses a stable sort, which only matters for tied confidences. -/
def mask_by_random_topk (numToMask : ℤ) (confidence : List (WithTop ℚ)) :
    Option (List Bool) :=
  let sorted := confidence.insertionSort (· ≤ ·)
  if 0 ≤ numToMask ∧ numToMask.toNat < sorted.length then
    some (confidence.map (fun c => decide (c < sorted.getD numToMask.toNat ⊤)))
  else none

/-- The cutoff rule exactly as worded by the specification (§4.4 step 3):
the cutoff is the value at rank `num_to_mask - 1` (0-indexed) of the
ascending sort.  Declared only to be compared against
`mask_by_random_topk`, which is the embedding of the source. -/
def maskByRandomTopkSpecRank (numToMask : ℤ) (confidence : List (WithTop ℚ)) :
    Option (List Bool) :=
  let sorted := confidence.insertionSort (· ≤ ·)
  if 0 ≤ numToMask ∧ numToMask.toNat < sorted.length then
    some (confidence.map (fun c => decide (c < sorted.getD (numToMask.toNat - 1) ⊤)))
  else none

/-! ## Typical-mass filtering: `typical_filter`

`typical_filter` (`transformer.py` lines 361–387) has two stages.  Lines
366–372 are transcendental float computations: `p = softmax(x)` per row and
`dev = |(-log_softmax(x)) - entropy|` per vocabulary entry.  Lines 373–386
are the selection and fill stage, which only reorders, accumulates and
compares those values.  The model embeds the selection stage exactly and
quantifies over the pair `(p, dev)` produced by the first stage; any logits
row induces such a pair with `p` entrywise nonnegative and summing to one. -/

/-- Running cumulative sums (`torch.cumsum`): entry `i` is the sum of the
first `i + 1` entries. -/
def cumsumQ (l : List ℚ) : List ℚ :=
  (List.range l.length).map (fun i => qsum (l.take (i + 1)))

/-- The `(vocab index, deviation)` pairs sorted ascending by deviation:
`torch.sort(c_flat_shifted, descending=False)` of line 373, which returns
both the sorted deviations and the sort indices `x_flat_indices`. -/
def devOrder (dev : List ℚ) : List (ℕ × ℚ) :=
  (dev.enum).insertionSort (fun a b => a.2 ≤ b.2)

/-- `x_flat_indices` of line 373: the vocabulary indices in typical order. -/
def sortedIdx (dev : List ℚ) : List ℕ := (devOrder dev).map Prod.fst

/-- `c_flat_sorted` of line 373: the deviations in ascending order. -/
def sortedDev (dev : List ℚ) : List ℚ := (devOrder dev).map Prod.snd

/-- The original softmax probabilities gathered into typical order
(line 374, `x_flat.gather(-1, x_flat_indices).softmax(dim=-1)`; softmax is
permutation-equivariant, so this is `p` reindexed by the sort). -/
def gatheredP (p dev : List ℚ) : List ℚ := (sortedIdx dev).map (fun v => p.getD v 0)

/-- `last_ind` (line 376): how many cumulative sums lie strictly below the
typical mass. -/
def typicalLastInd (mass : ℚ) (p dev : List ℚ) : ℕ :=
  (cumsumQ (gatheredP p dev)).countP (fun x => decide (x < mass))

/-- `torch.Tensor.scatter(dim, index, src)` on one boolean row:
`out[index[j]] = src[j]`, other positions keeping the base value. -/
def scatterSet (base : List Bool) (idx : List ℕ) (src : List Bool) : List Bool :=
  (idx.zip src).foldl (fun acc pr => acc.set pr.1 pr.2) base

/-- Selection stage of `typical_filter` (lines 373–384): per vocabulary
entry, whether the entry is removed.  `none` models the index error raised
by `gather(1, last_ind.view(-1, 1))` when `last_ind` falls outside the row
(which cannot happen when the typical mass is at most the total mass).
The scatter of line 382 uses `sorted_indices_to_remove` itself as the base
tensor, which the model mirrors; since the sort indices are a permutation,
every position is overwritten anyway. -/
def typicalRemove (mass : ℚ) (minTokens : ℕ) (p dev : List ℚ) : Option (List Bool) :=
  let sDev := sortedDev dev
  let lastInd := typicalLastInd mass p dev
  if lastInd < sDev.length then
    let cutoff := sDev.getD lastInd 0
    let removeSortedRaw := sDev.map (fun c => decide (cutoff < c))
    let removeSorted := if 1 < minTokens then
        (removeSortedRaw.enum).map (fun pr => if pr.1 < minTokens then false else pr.2)
      else removeSortedRaw
    some (scatterSet removeSorted (sortedIdx dev) removeSorted)
  else none

/-- `typical_filter`'s fill stage (lines 385–386): removed entries get logit
`-inf` (`⊥`), the rest keep their logit. -/
def typical_filter (mass : ℚ) (minTokens : ℕ) (p dev : List ℚ)
    (logits : List (WithBot ℚ)) : Option (List (WithBot ℚ)) :=
  (typicalRemove mass minTokens p dev).map (fun remove =>
    List.zipWith (fun rm x => if rm then (⊥ : WithBot ℚ) else x) remove logits)

/-- The retained set exactly as worded by the specification (§4.3 step 4 and
the claim): the minimal prefix of the ascending-deviation order whose
cumulative original mass reaches `typical_mass` is retained, everything else
removed.  Declared only to be compared against `typicalRemove`. -/
def specTypicalRemove (mass : ℚ) (p dev : List ℚ) : Option (List Bool) :=
  let lastInd := typicalLastInd mass p dev
  if lastInd < (sortedDev dev).length then
    some (scatterSet ((List.range dev.length).map (fun _ => false)) (sortedIdx dev)
      ((List.range (sortedDev dev).length).map (fun j => decide (lastInd < j))))
  else none

/-- Total original probability mass retained by a removal mask. -/
def retainedMass (p : List ℚ) (remove : List Bool) : ℚ :=
  qsum ((List.range p.length).map (fun v => if remove.getD v true then 0 else p.getD v 0))

/-- Lines 228–239 of `generate`: the logits actually fed to the softmax of
line 239.  When `typical_filtering` is on, the source calls
`typical_filter(logits, ...)` on line 231 without binding its result;
`masked_fill` inside `typical_filter` is out-of-place, so the caller's
logits tensor is unchanged.  The model mirrors the call-and-discard
faithfully. -/
def generateUsedLogits (typicalFiltering : Bool) (mass : ℚ) (minTokens : ℕ)
    (p dev : List ℚ) (logits : List (WithBot ℚ)) : List (WithBot ℚ) :=
  if typicalFiltering then
    let _filtered := typical_filter mass minTokens p dev logits
    logits
  else logits

/-! ## The decoding loop: `generate` -/

/-- The static configuration of a `VampNet` model that `generate` reads. -/
structure Params where
  nCodebooks : ℕ
  nCond : ℕ
  vocabSize : ℕ
deriving DecidableEq

/-- Modelled from the spec (§3, "mask sentinel … e.g. vocab_size"): the MASK
special-token index of `CodebookEmbedding` (`layers.py`, not under `src/`)
is the first index past the vocabulary. -/
def Params.maskTok (P : Params) : ℤ := P.vocabSize

/-- `n_infer_codebooks = n_codebooks - n_conditioning_codebooks` (line 202). -/
def Params.nInfer (P : Params) : ℕ := P.nCodebooks - P.nCond

/-- The `temperature` argument of `generate`.  The signature annotates
`Union[float, Tuple[float, float]]`, and plain Python ints can also be
passed; line 164 asserts `isinstance(temperature, float)`. -/
inductive TempArg where
  | float (q : ℚ)
  | int (n : ℤ)
  | pair (a b : ℚ)
deriving DecidableEq

/-- Whether the argument is a Python float. -/
def TempArg.isFloat : TempArg → Bool
  | TempArg.float _ => true
  | TempArg.int _ => false
  | TempArg.pair _ _ => false

/-- The `mask` argument of `generate`: absent (`None`), a 2-dimensional
`(batch, time)` mask (line 186 repeats it across codebooks), or a full
3-dimensional `(batch, codebooks, time)` mask (one batch row modelled). -/
inductive MaskArg where
  | none
  | dim2 (row : List ℤ)
  | dim3 (g : List (List ℤ))
deriving DecidableEq

/-- The Python exceptions `generate` can raise in the modelled fragment:
the `assert` of line 164, shape/broadcast errors of tensor ops, the
`NameError` for `sampled_z` at line 316 when the loop body never ran, and
the index error of `take_along_dim`. -/
inductive GenErr where
  | assertionError
  | shapeError
  | nameError
  | indexError
deriving DecidableEq

/-- Per-step input from the external collaborators (§6): the token drawn by
`torch.multinomial` at every flattened position of the predicted region, and
the perturbed confidence `log(selected_prob) + temperature*(1-r) * gumbel`
at every such position (used only where the position is masked; unmasked
positions are overridden to `inf` by line 277). -/
structure StepOracle where
  sampled : List ℤ
  pert : List ℚ
deriving DecidableEq

/-- Everything one iteration of the loop (lines 209–312) computes. -/
structure StepRes where
  maskBefore : List Bool
  conf : List (WithTop ℚ)
  numToMask : ℤ
  newMask : List Bool
  sampledFlat : List ℤ
  zMaskedAfter : List (List ℤ)
deriving DecidableEq

instance : Inhabited StepRes := ⟨⟨[], [], 0, [], [], []⟩⟩

/-- The observable outcome of a full `generate` call: the initial mask-token
count of line 198, the per-step trace, and the returned token grid. -/
structure GenRun where
  startMasked : ℕ
  trace : List StepRes
  out : List (List ℤ)
deriving DecidableEq

instance : Inhabited GenRun := ⟨⟨0, [], []⟩⟩

/-- Mask resolution (lines 183–188): `None` becomes `ones_like(z)` with the
conditioning rows zeroed; a 2-dimensional mask is repeated across the
codebook dimension; a 3-dimensional mask is taken as-is. -/
def resolveMask (P : Params) (z : List (List ℤ)) : MaskArg → List (List ℤ)
  | MaskArg.none =>
      List.zipWith (fun c row => row.map (fun _ => if c < P.nCond then (0 : ℤ) else 1))
        (List.range z.length) z
  | MaskArg.dim2 row => List.replicate z.length row
  | MaskArg.dim3 g => g

/-- Broadcasting one mask row against a target length, as `torch` broadcast
semantics: equal length, or length 1 stretched. -/
def bcastRow (t : ℕ) (row : List ℤ) : Option (List ℤ) :=
  if row.length = t then some row
  else if row.length = 1 then some (List.replicate t row.headI)
  else none

/-- `z.masked_fill(mask.bool(), v)` (line 194) with `torch` broadcasting of
the mask over the channel and time dimensions; `none` is the runtime error
raised when the mask is not broadcastable to `z`'s shape. -/
def maskedFill (z m : List (List ℤ)) (v : ℤ) : Option (List (List ℤ)) :=
  let mrows := if m.length = z.length then some m
    else if m.length = 1 then some (List.replicate z.length m.headI)
    else none
  match mrows with
  | Option.none => Option.none
  | some mr =>
    let rows := List.zipWith (fun zrow mrow => (bcastRow zrow.length mrow).map
        (fun mb => List.zipWith (fun zv mv => if mv ≠ 0 then v else zv) zrow mb)) z mr
    if rows.all Option.isSome then some (rows.map (fun o => o.getD [])) else Option.none

/-- One iteration of the sampling loop (lines 209–312).  In order: the
schedule step `r` (line 216); flatten the non-conditioning region of
`z_masked` (line 263); recompute the mask from the sentinel (line 265); keep
committed tokens (line 270); override unmasked confidences to `inf`
(line 276); the schedule count with its off-final-step clamp (lines
281–291); remask by confidence (line 294); write sentinels at the new mask
(line 299); unflatten and re-prepend the conditioning rows of the original
`z` (lines 304–311).  The oracle replaces lines 223–258 (scoring, softmax
and the multinomial draw); its lengths structurally equal the flattened
length in the source, so a mismatch is a model-level shape error. -/
def genStep (P : Params) (gamma : ℚ → ℚ) (z : List (List ℤ)) (startMasked : ℕ)
    (samplingSteps : ℕ) (i : ℕ) (o : StepOracle) (zMasked : List (List ℤ)) :
    Except GenErr StepRes :=
  let r := stepRatio i samplingSteps
  let flat := codebook_flatten (zMasked.drop P.nCond)
  if o.sampled.length = flat.length ∧ o.pert.length = flat.length then
    let mask := flat.map (fun x => decide (x = P.maskTok))
    let sampledZ := zipWith3 (fun m s zm => if m then s else zm) mask o.sampled flat
    let selConf := List.zipWith (fun m pv => if m then ((pv : ℚ) : WithTop ℚ) else ⊤)
      mask o.pert
    let sched : ℤ := floorQ (qmul (gamma r) ((startMasked : ℚ)))
    let numToMask : ℤ :=
      if i ≠ samplingSteps - 1 then
        max 1 (min ((mask.count true : ℤ) - 1) sched)
      else sched
    match mask_by_random_topk numToMask selConf with
    | Option.none => Except.error GenErr.indexError
    | some newMask =>
      let zMaskedFlat := List.zipWith (fun mb sv => if mb then P.maskTok else sv)
        newMask sampledZ
      match codebook_unflatten zMaskedFlat P.nInfer with
      | Option.none => Except.error GenErr.shapeError
      | some g =>
        Except.ok ⟨mask, selConf, numToMask, newMask, sampledZ, z.take P.nCond ++ g⟩
  else Except.error GenErr.shapeError

/-- The `for i in range(sampling_steps)` loop, one oracle per iteration,
collecting every iteration's results. -/
def genLoop (P : Params) (gamma : ℚ → ℚ) (z : List (List ℤ)) (startMasked : ℕ)
    (samplingSteps : ℕ) : ℕ → List (List ℤ) → List StepOracle →
    Except GenErr (List StepRes)
  | _, _, [] => Except.ok []
  | i, zM, o :: os =>
    match genStep P gamma z startMasked samplingSteps i o zM with
    | Except.error e => Except.error e
    | Except.ok sr =>
      match genLoop P gamma z startMasked samplingSteps (i + 1) sr.zMaskedAfter os with
      | Except.error e => Except.error e
      | Except.ok rest => Except.ok (sr :: rest)

/-- The initial token grid (lines 170–175): caller-provided `start_tokens`,
or an all-sentinel grid of shape `(1, n_codebooks, time_steps)`. -/
def resolvedStart (P : Params) (timeSteps : ℕ)
    (startTokens : Option (List (List ℤ))) : List (List ℤ) :=
  startTokens.getD (List.replicate P.nCodebooks (List.replicate timeSteps P.maskTok))

/-- The full `generate` call (lines 144–326), with `return_signal=False` so
the token grid is returned.  In order: the float assertion on `temperature`
(line 164); resolution of the initial grid (lines 170–175) and mask (lines
183–188); `z_masked` via `masked_fill` (line 194); the initial count of mask
tokens over the whole grid (line 198); the sampling loop; and the final
unflatten-and-concatenate of `sampled_z` (lines 316–319).  When the loop ran
zero times, line 316 reads the never-assigned local `sampled_z`, a
`NameError`. -/
def generateRun (P : Params) (gamma : ℚ → ℚ) (temperature : TempArg)
    (timeSteps samplingSteps : ℕ) (startTokens : Option (List (List ℤ)))
    (maskArg : MaskArg) (oracles : List StepOracle) : Except GenErr GenRun :=
  if temperature.isFloat = false then Except.error GenErr.assertionError
  else
    let z := resolvedStart P timeSteps startTokens
    let mask := resolveMask P z maskArg
    match maskedFill z mask P.maskTok with
    | Option.none => Except.error GenErr.shapeError
    | some zMasked =>
      let startMasked :=
        (zMasked.map (fun row => row.countP (fun x => decide (x = P.maskTok)))).sum
      match genLoop P gamma z startMasked samplingSteps 0 zMasked
          (oracles.take samplingSteps) with
      | Except.error e => Except.error e
      | Except.ok trace =>
        match trace.getLast? with
        | Option.none => Except.error GenErr.nameError
        | some last =>
          match codebook_unflatten last.sampledFlat P.nInfer with
          | Option.none => Except.error GenErr.shapeError
          | some g => Except.ok ⟨startMasked, trace, z.take P.nCond ++ g⟩

/-- Whether an `Except` value is a success. -/
def isOkE {ε α : Type*} : Except ε α → Bool
  | Except.ok _ => true
  | Except.error _ => false

/-- The successful result of a `generate` call (default on error). -/
def runOf (x : Except GenErr GenRun) : GenRun :=
  match x with
  | Except.ok r => r
  | Except.error _ => default

instance : DecidableEq (Except GenErr GenRun) := fun x y =>
  match x, y with
  | Except.ok a, Except.ok b => decidable_of_iff (a = b) (by simp)
  | Except.error a, Except.error b => decidable_of_iff (a = b) (by simp)
  | Except.ok _, Except.error _ => isFalse (fun h => Except.noConfusion h)
  | Except.error _, Except.ok _ => isFalse (fun h => Except.noConfusion h)

/-- A concrete schedule `gamma(q) = 1 - q` in kernel-computable form, used by
the witnesses; it satisfies `gamma(0)=1`, `gamma(1)=0` and is
non-increasing. -/
def gammaOneSub (q : ℚ) : ℚ := mkRat ((q.den : ℤ) - q.num) q.den

/-! ## Bridging theorems for the rational helpers -/

theorem qadd_eq (a b : ℚ) : qadd a b = a + b := by
  unfold qadd
  rw [Rat.mkRat_eq_div]
  have ha : ((a.den : ℚ)) ≠ 0 := by exact_mod_cast a.den_nz
  have hb : ((b.den : ℚ)) ≠ 0 := by exact_mod_cast b.den_nz
  have hab : ((a.den * b.den : ℕ) : ℚ) ≠ 0 := by
    push_cast
    exact mul_ne_zero ha hb
  rw [div_eq_iff hab]
  have hna : (a.num : ℚ) = a * a.den := (div_eq_iff ha).mp (Rat.num_div_den a)
  have hnb : (b.num : ℚ) = b * b.den := (div_eq_iff hb).mp (Rat.num_div_den b)
  push_cast
  rw [hna, hnb]
  ring

theorem qmul_eq (a b : ℚ) : qmul a b = a * b := by
  unfold qmul
  rw [Rat.mkRat_eq_div]
  have ha : ((a.den : ℚ)) ≠ 0 := by exact_mod_cast a.den_nz
  have hb : ((b.den : ℚ)) ≠ 0 := by exact_mod_cast b.den_nz
  have hab : ((a.den * b.den : ℕ) : ℚ) ≠ 0 := by
    push_cast
    exact mul_ne_zero ha hb
  rw [div_eq_iff hab]
  have hna : (a.num : ℚ) = a * a.den := (div_eq_iff ha).mp (Rat.num_div_den a)
  have hnb : (b.num : ℚ) = b * b.den := (div_eq_iff hb).mp (Rat.num_div_den b)
  push_cast
  rw [hna, hnb]
  ring

theorem qsum_eq (l : List ℚ) : qsum l = l.sum := by
  induction l with
  | nil => rfl
  | cons x xs ih =>
    rw [qsum, List.foldr_cons, qadd_eq, List.sum_cons]
    rw [qsum] at ih
    rw [ih]

theorem floorQ_eq (q : ℚ) : floorQ q = ⌊q⌋ := by
  rw [floorQ, Rat.floor_def]

theorem stepRatio_eq (i samplingSteps : ℕ) :
    stepRatio i samplingSteps = ((i : ℚ) + 1) / (samplingSteps : ℚ) := by
  unfold stepRatio
  rw [Rat.mkRat_eq_div]
  push_cast
  ring

theorem stepRatio_last (samplingSteps : ℕ) (h : samplingSteps ≠ 0) :
    stepRatio (samplingSteps - 1) samplingSteps = 1 := by
  rw [stepRatio_eq]
  have h1 : (1 : ℕ) ≤ samplingSteps := Nat.one_le_iff_ne_zero.mpr h
  have : ((samplingSteps - 1 : ℕ) : ℚ) = (samplingSteps : ℚ) - 1 := by
    push_cast [h1]
    ring
  rw [this]
  have hs : ((samplingSteps : ℚ)) ≠ 0 := by exact_mod_cast h
  field_simp

theorem gammaOneSub_eq (q : ℚ) : gammaOneSub q = 1 - q := by
  unfold gammaOneSub
  rw [Rat.mkRat_eq_div]
  have hq : ((q.den : ℚ)) ≠ 0 := by exact_mod_cast q.den_nz
  have hn : (q.num : ℚ) = q * q.den := (div_eq_iff hq).mp (Rat.num_div_den q)
  rw [div_eq_iff hq]
  push_cast
  rw [hn]
  ring

/-! ## Small list helpers -/

/-- Evaluating a map over `List.range` below the bound. -/
theorem getD_range_map {α : Type*} (f : ℕ → α) (n i : ℕ) (d : α) (h : i < n) :
    ((List.range n).map f).getD i d = f i := by
  rw [List.getD_eq_getElem _ d (show i < ((List.range n).map f).length by simpa using h)]
  simp

/-- Rebuilding a list from its `getD` values. -/
theorem range_map_getD {α : Type*} (l : List α) (d : α) :
    (List.range l.length).map (fun j => l.getD j d) = l := by
  apply List.ext_getElem?
  intro i
  by_cases hi : i < l.length
  · rw [List.getElem?_map, List.getElem?_range hi]
    simp only [Option.map_some']
    rw [List.getD_eq_getElem l d hi, List.getElem?_eq_getElem hi]
  · rw [List.getElem?_eq_none (by simpa using hi), List.getElem?_eq_none (by omega)]

/-! ## Properties of flatten / unflatten -/

theorem codebook_unflatten_pos {flat : List ℤ} {nC : ℕ} {g : List (List ℤ)}
    (h : codebook_unflatten flat nC = some g) : 0 < nC ∧ nC ∣ flat.length := by
  by_cases hc : 0 < nC ∧ nC ∣ flat.length
  · exact hc
  · rw [codebook_unflatten, if_neg hc] at h
    cases h

theorem codebook_unflatten_eq {flat : List ℤ} {nC : ℕ} {g : List (List ℤ)}
    (h : codebook_unflatten flat nC = some g) :
    g = (List.range nC).map (fun c =>
      (List.range (flat.length / nC)).map (fun t => flat.getD (t * nC + c) 0)) := by
  have hc := codebook_unflatten_pos h
  rw [codebook_unflatten, if_pos hc] at h
  exact (Option.some_injective _ h).symm

theorem codebook_unflatten_length {flat : List ℤ} {nC : ℕ} {g : List (List ℤ)}
    (h : codebook_unflatten flat nC = some g) : g.length = nC := by
  rw [codebook_unflatten_eq h]
  simp

theorem codebook_unflatten_rows {flat : List ℤ} {nC : ℕ} {g : List (List ℤ)}
    (h : codebook_unflatten flat nC = some g) :
    ∀ row ∈ g, row.length = flat.length / nC := by
  rw [codebook_unflatten_eq h]
  intro row hrow
  rcases List.mem_map.mp hrow with ⟨c, _, rfl⟩
  simp

theorem codebook_unflatten_headI_length {flat : List ℤ} {nC : ℕ} {g : List (List ℤ)}
    (h : codebook_unflatten flat nC = some g) : g.headI.length = flat.length / nC := by
  have hpos := (codebook_unflatten_pos h).1
  have hlen := codebook_unflatten_length h
  have hne : g ≠ [] := by
    intro he
    rw [he] at hlen
    simp at hlen
    omega
  rcases List.exists_cons_of_ne_nil hne with ⟨row, rest, rfl⟩
  exact codebook_unflatten_rows h row (by simp)

/-- Flattening the unflattened grid gives back the flat list: the inverse
direction of the §4.2 round-trip, used by each loop iteration. -/
theorem codebook_flatten_unflatten {flat : List ℤ} {nC : ℕ} {g : List (List ℤ)}
    (h : codebook_unflatten flat nC = some g) : codebook_flatten g = flat := by
  obtain ⟨hpos, hdvd⟩ := codebook_unflatten_pos h
  have hg := codebook_unflatten_eq h
  have hlen : g.length = nC := codebook_unflatten_length h
  have hhead : g.headI.length = flat.length / nC := codebook_unflatten_headI_length h
  have hmul : nC * (flat.length / nC) = flat.length := Nat.mul_div_cancel' hdvd
  rw [codebook_flatten, hlen, hhead, hmul]
  have hrow : ∀ j, j < flat.length →
      (g.getD (j % nC) []).getD (j / nC) 0 = flat.getD j 0 := by
    intro j hj
    have hmod : j % nC < nC := Nat.mod_lt _ hpos
    have hdivlt : j / nC < flat.length / nC := by
      apply Nat.div_lt_div_of_lt_of_dvd hdvd hj
    rw [hg, getD_range_map _ _ _ _ hmod, getD_range_map _ _ _ _ hdivlt]
    congr 1
    rw [Nat.add_comm, Nat.mul_comm]
    exact (Nat.mod_add_div j nC)
  calc (List.range flat.length).map (fun j => (g.getD (j % nC) []).getD (j / nC) 0)
      = (List.range flat.length).map (fun j => flat.getD j 0) := by
        apply List.map_congr_left
        intro j hj
        exact hrow j (List.mem_range.mp hj)
    _ = flat := range_map_getD flat 0

/-- Every entry of the unflattened grid is an entry of the flat list. -/
theorem codebook_unflatten_mem {flat : List ℤ} {nC : ℕ} {g : List (List ℤ)}
    (h : codebook_unflatten flat nC = some g) :
    ∀ row ∈ g, ∀ x ∈ row, x ∈ flat := by
  obtain ⟨hpos, hdvd⟩ := codebook_unflatten_pos h
  rw [codebook_unflatten_eq h]
  intro row hrow x hx
  rcases List.mem_map.mp hrow with ⟨c, hc, rfl⟩
  rcases List.mem_map.mp hx with ⟨t, ht, rfl⟩
  have hc' : c < nC := List.mem_range.mp hc
  have ht' : t < flat.length / nC := List.mem_range.mp ht
  have hidx : t * nC + c < flat.length := by
    have hmul : flat.length / nC * nC = flat.length := Nat.div_mul_cancel hdvd
    have h1 : t * nC + c < (t + 1) * nC := by
      rw [Nat.succ_mul]
      omega
    have h2 : (t + 1) * nC ≤ flat.length / nC * nC := by
      exact Nat.mul_le_mul_right _ ht'
    omega
  rw [List.getD_eq_getElem flat 0 hidx]
  exact List.getElem_mem hidx

/-! ## Properties of `mask_by_random_topk` -/

/-- Normal form of `mask_by_random_topk`. -/
theorem mask_by_random_topk_ite (n : ℤ) (conf : List (WithTop ℚ)) :
    mask_by_random_topk n conf
      = if 0 ≤ n ∧ n.toNat < conf.length then
          some (conf.map (fun c =>
            decide (c < (conf.insertionSort (· ≤ ·)).getD n.toNat ⊤)))
        else none := by
  simp only [mask_by_random_topk, List.length_insertionSort]

/-- A sorted list is monotone in its indices. -/
theorem sorted_getElem_le {α : Type*} [Preorder α] {s : List α}
    (hs : s.Sorted (· ≤ ·)) {i j : ℕ} (hij : i ≤ j) (hj : j < s.length) :
    s[i] ≤ s[j] := by
  rcases eq_or_lt_of_le hij with rfl | hlt
  · exact le_refl _
  · exact List.pairwise_iff_getElem.mp hs i j (lt_of_le_of_lt hij hj) hj hlt

/-- In a sorted confidence list with at least `k` non-`⊤` entries and
pairwise-distinct non-`⊤` entries, exactly `k` entries lie strictly below
the entry at index `k`. -/
theorem countP_lt_sorted_getD (s : List (WithTop ℚ)) (k : ℕ)
    (hs : s.Sorted (· ≤ ·)) (hk : k < s.length)
    (hcand : k ≤ s.countP (fun c => decide (c ≠ ⊤)))
    (hdist : s.Pairwise (fun a b => a ≠ ⊤ → b ≠ ⊤ → a ≠ b)) :
    s.countP (fun c => decide (c < s.getD k ⊤)) = k := by
  rw [List.getD_eq_getElem s ⊤ hk]
  have htake : ∀ x ∈ s.take k, x < s[k] := by
    intro x hx
    rcases List.mem_iff_getElem.mp hx with ⟨j, hjlen, hjx⟩
    have hjk : j < k := by
      have := List.length_take k s
      omega
    have hjs : j < s.length := lt_trans hjk hk
    have hxj : s[j] = x := by
      rw [← hjx]
      exact (List.getElem_take _).symm
    have hle : s[j] ≤ s[k] := sorted_getElem_le hs (le_of_lt hjk) hk
    by_cases htop : s[k] = ⊤
    · have hne : s[j] ≠ ⊤ := by
        intro hjtop
        have hdropz : (s.drop j).countP (fun c => decide (c ≠ ⊤)) = 0 := by
          apply List.countP_eq_zero.mpr
          intro y hy
          rcases List.mem_iff_getElem.mp hy with ⟨m, hmlen, hmy⟩
          have hjm : j + m < s.length := by
            have := List.length_drop j s
            omega
          have hym : s[j + m] = y := by
            rw [← hmy]
            exact (List.getElem_drop s).symm
          have : s[j] ≤ s[j + m] := sorted_getElem_le hs (Nat.le_add_right j m) hjm
          rw [hjtop] at this
          have : y = ⊤ := top_le_iff.mp (hym ▸ this)
          simp [this]
        have hsplit : s.countP (fun c => decide (c ≠ ⊤))
            = (s.take j).countP (fun c => decide (c ≠ ⊤))
              + (s.drop j).countP (fun c => decide (c ≠ ⊤)) := by
          conv_lhs => rw [← List.take_append_drop j s]
          exact List.countP_append _ _ _
        have hlej : (s.take j).countP (fun c => decide (c ≠ ⊤)) ≤ j := by
          calc (s.take j).countP (fun c => decide (c ≠ ⊤)) ≤ (s.take j).length :=
              List.countP_le_length _
            _ ≤ j := by
              rw [List.length_take]
              omega
        omega
      rw [hxj] at hne
      rw [htop]
      exact WithTop.lt_top_iff_ne_top.mpr hne
    · have hxlt : s[j] ≠ s[k] := by
        have hjne : s[j] ≠ ⊤ := by
          intro hjtop
          rw [hjtop] at hle
          exact htop (top_le_iff.mp hle)
        exact List.pairwise_iff_getElem.mp hdist j k hjs hk hjk hjne htop
      rw [← hxj]
      exact lt_of_le_of_ne hle hxlt
  have hdrop : ∀ y ∈ s.drop k, ¬ (y < s[k]) := by
    intro y hy
    rcases List.mem_iff_getElem.mp hy with ⟨m, hmlen, hmy⟩
    have hkm : k + m < s.length := by
      have := List.length_drop k s
      omega
    have hym : s[k + m] = y := by
      rw [← hmy]
      exact (List.getElem_drop s).symm
    have : s[k] ≤ s[k + m] := sorted_getElem_le hs (Nat.le_add_right k m) hkm
    rw [hym] at this
    exact not_lt.mpr this
  obtain ⟨c0, hc0⟩ : ∃ c0, c0 = s[k] := ⟨_, rfl⟩
  rw [← hc0] at htake hdrop ⊢
  have hsplit : s.countP (fun c => decide (c < c0))
      = (s.take k).countP (fun c => decide (c < c0))
        + (s.drop k).countP (fun c => decide (c < c0)) := by
    conv_lhs => rw [← List.take_append_drop k s]
    exact List.countP_append _ _ _
  have h1 : (s.take k).countP (fun c => decide (c < c0)) = k := by
    rw [List.countP_eq_length.mpr]
    · rw [List.length_take]
      omega
    · intro x hx
      simpa using htake x hx
  have h2 : (s.drop k).countP (fun c => decide (c < c0)) = 0 := by
    apply List.countP_eq_zero.mpr
    intro y hy
    simpa using hdrop y hy
  omega

/-- Pairs drawn from `(l.map p).zip l` are function-value pairs. -/
theorem zip_map_self {α β : Type*} (p : α → β) :
    ∀ (l : List α), ∀ pr ∈ (l.map p).zip l, pr.1 = p pr.2
  | [], pr, h => by cases h
  | x :: xs, pr, h => by
    rcases List.mem_cons.mp h with rfl | hmem
    · rfl
    · exact zip_map_self p xs pr hmem


/-- Positions whose confidence is `inf` are never re-masked. -/
theorem mask_by_random_topk_top {n : ℤ} {conf : List (WithTop ℚ)} {nm : List Bool}
    (h : mask_by_random_topk n conf = some nm) (j : ℕ) (hj : j < conf.length)
    (htop : conf.getD j ⊤ = ⊤) : nm.getD j false = false := by
  rw [mask_by_random_topk_ite] at h
  by_cases hc : 0 ≤ n ∧ n.toNat < conf.length
  · rw [if_pos hc] at h
    obtain rfl : nm = conf.map (fun c =>
        decide (c < (conf.insertionSort (· ≤ ·)).getD n.toNat ⊤)) :=
      (Option.some_injective _ h).symm
    rw [List.getD_eq_getElem _ false (show j < (conf.map _).length by simpa using hj)]
    rw [List.getElem_map]
    rw [List.getD_eq_getElem conf ⊤ hj] at htop
    rw [htop]
    simp
  · rw [if_neg hc] at h
    cases h

/-- With `num_to_mask = 0` the remasking returns an all-false mask. -/
theorem mask_by_random_topk_zero {conf : List (WithTop ℚ)} {nm : List Bool}
    (h : mask_by_random_topk 0 conf = some nm) : nm.count true = 0 := by
  rw [mask_by_random_topk_ite] at h
  by_cases hc : 0 ≤ (0 : ℤ) ∧ (0 : ℤ).toNat < conf.length
  · rw [if_pos hc] at h
    obtain rfl : nm = conf.map (fun c =>
        decide (c < (conf.insertionSort (· ≤ ·)).getD (0 : ℤ).toNat ⊤)) :=
      (Option.some_injective _ h).symm
    rw [List.count_eq_countP, List.countP_map]
    apply List.countP_eq_zero.mpr
    intro c hcmem
    have hlen : 0 < (conf.insertionSort (· ≤ ·)).length := by
      rw [List.length_insertionSort]
      exact lt_of_le_of_lt (Nat.zero_le _) hc.2
    have hmem : c ∈ conf.insertionSort (· ≤ ·) :=
      (List.perm_insertionSort _ conf).symm.subset hcmem
    have hmin : (conf.insertionSort (· ≤ ·)).getD 0 ⊤ ≤ c := by
      rcases hsort : conf.insertionSort (· ≤ ·) with _ | ⟨a, tl⟩
      · rw [hsort] at hlen
        simp at hlen
      · have hsorted : List.Sorted (· ≤ ·) (a :: tl) := by
          rw [← hsort]
          exact List.sorted_insertionSort _ conf
        rw [hsort] at hmem
        rw [List.getD_cons_zero]
        rcases List.mem_cons.mp hmem with rfl | htl
        · exact le_refl _
        · exact List.rel_of_sorted_cons hsorted c htl
    simp only [Int.toNat_zero, Function.comp_apply, beq_iff_eq, decide_eq_true_eq]
    exact not_lt.mpr hmin
  · rw [if_neg hc] at h
    cases h

/-- C2 counterexample: with perturbed confidences `[-3, -2, -1]` and
`num_to_mask = 2`, the source's cutoff is the sorted value at rank 2 and two
positions are re-masked, while the claim's rank `num_to_mask - 1 = 1` would
re-mask a single position.  The claimed and actual masks differ. -/
theorem c2_cutoff_rank_counterexample :
    mask_by_random_topk 2
        [((-3 : ℚ) : WithTop ℚ), ((-2 : ℚ) : WithTop ℚ), ((-1 : ℚ) : WithTop ℚ)]
      = some [true, true, false] ∧
    maskByRandomTopkSpecRank 2
        [((-3 : ℚ) : WithTop ℚ), ((-2 : ℚ) : WithTop ℚ), ((-1 : ℚ) : WithTop ℚ)]
      = some [true, false, false] ∧
    ¬ (mask_by_random_topk 2
        [((-3 : ℚ) : WithTop ℚ), ((-2 : ℚ) : WithTop ℚ), ((-1 : ℚ) : WithTop ℚ)]
      = maskByRandomTopkSpecRank 2
        [((-3 : ℚ) : WithTop ℚ), ((-2 : ℚ) : WithTop ℚ), ((-1 : ℚ) : WithTop ℚ)]) := by
  refine ⟨by decide, by decide, by decide⟩

/-- C2 (amended): for every confidence vector and every in-range
`num_to_mask`, the cutoff is the perturbed value at rank `num_to_mask`
(0-indexed, not `num_to_mask - 1`) of the ascending sort of the perturbed
confidences, and exactly the positions with perturbed value strictly below
that cutoff are re-masked. -/
theorem c2_cutoff_rank (k : ℕ) (conf : List (WithTop ℚ)) (h : k < conf.length) :
    ∃ s : List (WithTop ℚ), s.Perm conf ∧ s.Sorted (· ≤ ·) ∧
      mask_by_random_topk (k : ℤ) conf
        = some (conf.map (fun c => decide (c < s.getD k ⊤))) := by
  refine ⟨conf.insertionSort (· ≤ ·), List.perm_insertionSort _ conf,
    List.sorted_insertionSort _ conf, ?_⟩
  rw [mask_by_random_topk_ite]
  rw [if_pos ⟨Int.natCast_nonneg k, by simpa [Int.toNat_natCast] using h⟩]
  rw [Int.toNat_natCast]

/-- Witness for `c2_cutoff_rank` at `k = 1`, `conf = [-3, -2, -1]`. -/
theorem c2_cutoff_rank_witness :
    (1 < ([((-3 : ℚ) : WithTop ℚ), ((-2 : ℚ) : WithTop ℚ),
        ((-1 : ℚ) : WithTop ℚ)]).length) ∧
    (∃ s : List (WithTop ℚ),
      s.Perm [((-3 : ℚ) : WithTop ℚ), ((-2 : ℚ) : WithTop ℚ), ((-1 : ℚ) : WithTop ℚ)] ∧
      s.Sorted (· ≤ ·) ∧
      mask_by_random_topk ((1 : ℕ) : ℤ)
          [((-3 : ℚ) : WithTop ℚ), ((-2 : ℚ) : WithTop ℚ), ((-1 : ℚ) : WithTop ℚ)]
        = some (([((-3 : ℚ) : WithTop ℚ), ((-2 : ℚ) : WithTop ℚ),
            ((-1 : ℚ) : WithTop ℚ)]).map (fun c => decide (c < s.getD 1 ⊤)))) :=
  ⟨by decide, c2_cutoff_rank 1 _ (by decide)⟩

/-- C3 counterexample: a vector with exactly `k = 1` masked candidate and no
further positions satisfies the claim's hypothesis ("k or more masked
candidates", pairwise-distinct confidences), but
`mask_by_random_topk(1, ·, 0)` raises an index error (`take_along_dim` reads
sorted position 1 of a length-1 row) instead of returning a mask with
exactly one `true`. -/
theorem c3_exact_count_counterexample :
    mask_by_random_topk 1 [((mkRat 1 2 : ℚ) : WithTop ℚ)] = Option.none := by
  decide

/-- C3 (amended): at temperature 0 the perturbed confidences are
`log(probs)`, an order-isomorphic image of the probabilities.  For every
confidence vector with at least `k` finite (masked-candidate) entries,
pairwise-distinct finite entries, and — the amendment — strictly more than
`k` positions in total, the remasking returns a mask with exactly `k` true
positions, and every re-masked position has strictly lower confidence than
every kept position (so they are exactly the `k` lowest-confidence
positions). -/
theorem c3_exact_count (k : ℕ) (conf : List (WithTop ℚ))
    (hlen : k < conf.length)
    (hcand : k ≤ conf.countP (fun c => decide (c ≠ ⊤)))
    (hdist : conf.Pairwise (fun a b => a ≠ ⊤ → b ≠ ⊤ → a ≠ b)) :
    ∃ nm : List Bool, mask_by_random_topk (k : ℤ) conf = some nm ∧
      nm.count true = k ∧
      ∀ p1 ∈ nm.zip conf, ∀ p2 ∈ nm.zip conf,
        p1.1 = true → p2.1 = false → p1.2 < p2.2 := by
  have hsym : Symmetric (fun a b : WithTop ℚ => a ≠ ⊤ → b ≠ ⊤ → a ≠ b) := by
    intro a b hab hb ha
    exact (hab ha hb).symm
  have hperm : (conf.insertionSort (· ≤ ·)).Perm conf := List.perm_insertionSort _ conf
  have hsorted : (conf.insertionSort (· ≤ ·)).Sorted (· ≤ ·) :=
    List.sorted_insertionSort _ conf
  have hslen : (conf.insertionSort (· ≤ ·)).length = conf.length :=
    List.length_insertionSort _ _
  refine ⟨conf.map (fun c =>
      decide (c < (conf.insertionSort (· ≤ ·)).getD k ⊤)), ?_, ?_, ?_⟩
  · rw [mask_by_random_topk_ite]
    rw [if_pos ⟨Int.natCast_nonneg k, by simpa [Int.toNat_natCast] using hlen⟩]
    rw [Int.toNat_natCast]
  · rw [List.count_eq_countP, List.countP_map]
    have hcount : conf.countP (fun c =>
        decide (c < (conf.insertionSort (· ≤ ·)).getD k ⊤)) = k := by
      rw [← hperm.countP_eq]
      apply countP_lt_sorted_getD _ _ hsorted (by omega)
      · rw [hperm.countP_eq]
        exact hcand
      · exact (hperm.pairwise_iff (fun hab => hsym hab)).mpr hdist
    calc conf.countP ((fun b => b == true) ∘ (fun c =>
          decide (c < (conf.insertionSort (· ≤ ·)).getD k ⊤)))
        = conf.countP (fun c =>
            decide (c < (conf.insertionSort (· ≤ ·)).getD k ⊤)) := by
          apply List.countP_congr
          intro c _
          simp
      _ = k := hcount
  · intro p1 hp1 p2 hp2 h1 h2
    have e1 : p1.1 = decide (p1.2 < (conf.insertionSort (· ≤ ·)).getD k ⊤) :=
      zip_map_self _ conf p1 hp1
    have e2 : p2.1 = decide (p2.2 < (conf.insertionSort (· ≤ ·)).getD k ⊤) :=
      zip_map_self _ conf p2 hp2
    rw [h1] at e1
    rw [h2] at e2
    have hlt1 : p1.2 < (conf.insertionSort (· ≤ ·)).getD k ⊤ := of_decide_eq_true e1.symm
    have hlt2 : ¬ (p2.2 < (conf.insertionSort (· ≤ ·)).getD k ⊤) :=
      of_decide_eq_false e2.symm
    exact lt_of_lt_of_le hlt1 (not_lt.mp hlt2)

/-- Witness for `c3_exact_count` at `k = 2`,
`conf = [-3, -1, -2, inf]`: the returned mask re-masks exactly the two
lowest-confidence positions. -/
theorem c3_exact_count_witness :
    ((2 < ([((-3 : ℚ) : WithTop ℚ), ((-1 : ℚ) : WithTop ℚ), ((-2 : ℚ) : WithTop ℚ),
        (⊤ : WithTop ℚ)]).length) ∧
      (2 ≤ ([((-3 : ℚ) : WithTop ℚ), ((-1 : ℚ) : WithTop ℚ), ((-2 : ℚ) : WithTop ℚ),
        (⊤ : WithTop ℚ)]).countP (fun c => decide (c ≠ ⊤)))) ∧
    (∃ nm : List Bool,
      mask_by_random_topk ((2 : ℕ) : ℤ)
          [((-3 : ℚ) : WithTop ℚ), ((-1 : ℚ) : WithTop ℚ), ((-2 : ℚ) : WithTop ℚ),
            (⊤ : WithTop ℚ)] = some nm ∧
      nm.count true = 2 ∧
      ∀ p1 ∈ nm.zip [((-3 : ℚ) : WithTop ℚ), ((-1 : ℚ) : WithTop ℚ),
          ((-2 : ℚ) : WithTop ℚ), (⊤ : WithTop ℚ)],
        ∀ p2 ∈ nm.zip [((-3 : ℚ) : WithTop ℚ), ((-1 : ℚ) : WithTop ℚ),
          ((-2 : ℚ) : WithTop ℚ), (⊤ : WithTop ℚ)],
        p1.1 = true → p2.1 = false → p1.2 < p2.2) :=
  ⟨⟨by decide, by decide⟩,
    c3_exact_count 2 _ (by decide) (by decide) (by decide)⟩

/-! ## Properties of the scatter operation -/

theorem scatterSet_nil (base : List Bool) (src : List Bool) :
    scatterSet base [] src = base := rfl

theorem scatterSet_cons (base : List Bool) (i0 : ℕ) (is : List ℕ)
    (s0 : Bool) (ss : List Bool) :
    scatterSet base (i0 :: is) (s0 :: ss) = scatterSet (base.set i0 s0) is ss := rfl

theorem scatterSet_length : ∀ (idx : List ℕ) (src : List Bool) (base : List Bool),
    (scatterSet base idx src).length = base.length
  | [], _, _ => rfl
  | _ :: _, [], _ => rfl
  | i0 :: is, s0 :: ss, base => by
    rw [scatterSet_cons, scatterSet_length is ss, List.length_set]

theorem scatterSet_getD_not_mem : ∀ (idx : List ℕ) (src : List Bool)
    (base : List Bool) (i : ℕ), i ∉ idx → ∀ (d : Bool),
    (scatterSet base idx src).getD i d = base.getD i d
  | [], _, _, _, _, _ => rfl
  | _ :: _, [], _, _, _, _ => rfl
  | i0 :: is, s0 :: ss, base, i, hni, d => by
    rw [scatterSet_cons,
      scatterSet_getD_not_mem is ss _ i (fun h => hni (List.mem_cons_of_mem _ h)) d]
    have hne : i0 ≠ i := fun h => hni (h ▸ List.mem_cons_self i0 is)
    rw [List.getD_eq_getElem?_getD, List.getD_eq_getElem?_getD,
      List.getElem?_set_ne hne]

theorem scatterSet_getD : ∀ (idx : List ℕ) (src : List Bool) (base : List Bool),
    idx.Nodup → (∀ m ∈ idx, m < base.length) → ∀ (j : ℕ),
    j < idx.length → j < src.length → ∀ (d : Bool),
    (scatterSet base idx src).getD (idx.getD j 0) d = src.getD j d
  | [], _, _, _, _, j, hj, _, _ => absurd hj (by simp)
  | _ :: _, [], _, _, _, j, _, hjs, _ => absurd hjs (by simp)
  | i0 :: is, s0 :: ss, base, hnd, hbound, 0, hj, hjs, d => by
    rw [scatterSet_cons, List.getD_cons_zero, List.getD_cons_zero]
    have hni : i0 ∉ is := (List.nodup_cons.mp hnd).1
    rw [scatterSet_getD_not_mem is ss _ i0 hni d]
    have hlt : i0 < base.length := hbound i0 (List.mem_cons_self _ _)
    rw [List.getD_eq_getElem?_getD]
    simp [List.getElem?_set_self', List.getElem?_eq_getElem, hlt]
  | i0 :: is, s0 :: ss, base, hnd, hbound, (j+1), hj, hjs, d => by
    rw [scatterSet_cons, List.getD_cons_succ, List.getD_cons_succ]
    exact scatterSet_getD is ss _ (List.nodup_cons.mp hnd).2
      (fun m hm => by
        rw [List.length_set]
        exact hbound m (List.mem_cons_of_mem _ hm))
      j (by simpa using hj) (by simpa using hjs) d

/-! ## Properties of the typical order -/

theorem devOrder_perm (dev : List ℚ) : (devOrder dev).Perm dev.enum :=
  List.perm_insertionSort _ _

theorem devOrder_sorted (dev : List ℚ) :
    (devOrder dev).Sorted (fun a b : ℕ × ℚ => a.2 ≤ b.2) := by
  letI : IsTotal (ℕ × ℚ) (fun a b : ℕ × ℚ => a.2 ≤ b.2) :=
    ⟨fun a b => le_total a.2 b.2⟩
  letI : IsTrans (ℕ × ℚ) (fun a b : ℕ × ℚ => a.2 ≤ b.2) :=
    ⟨fun _ _ _ hab hbc => le_trans hab hbc⟩
  exact List.sorted_insertionSort _ _

theorem sortedIdx_perm (dev : List ℚ) :
    (sortedIdx dev).Perm (List.range dev.length) := by
  have h1 : (sortedIdx dev).Perm (dev.enum.map Prod.fst) :=
    (devOrder_perm dev).map Prod.fst
  rw [List.enum_map_fst] at h1
  exact h1

theorem sortedIdx_nodup (dev : List ℚ) : (sortedIdx dev).Nodup :=
  (sortedIdx_perm dev).nodup_iff.mpr (List.nodup_range _)

theorem sortedIdx_length (dev : List ℚ) : (sortedIdx dev).length = dev.length := by
  simpa using (sortedIdx_perm dev).length_eq

theorem sortedIdx_mem_lt (dev : List ℚ) : ∀ m ∈ sortedIdx dev, m < dev.length := by
  intro m hm
  have := (sortedIdx_perm dev).subset hm
  exact List.mem_range.mp this

theorem sortedDev_length (dev : List ℚ) : (sortedDev dev).length = dev.length := by
  rw [sortedDev, List.length_map]
  simpa using (devOrder_perm dev).length_eq

theorem sortedDev_sorted (dev : List ℚ) : (sortedDev dev).Sorted (· ≤ ·) := by
  rw [sortedDev]
  rw [List.Sorted, List.pairwise_map]
  exact devOrder_sorted dev

theorem gatheredP_length (p dev : List ℚ) : (gatheredP p dev).length = dev.length := by
  rw [gatheredP, List.length_map, sortedIdx_length]

theorem gatheredP_nonneg (p dev : List ℚ) (hpos : ∀ x ∈ p, 0 ≤ x) :
    ∀ x ∈ gatheredP p dev, 0 ≤ x := by
  intro x hx
  rcases List.mem_map.mp hx with ⟨v, _, rfl⟩
  by_cases hv : v < p.length
  · rw [List.getD_eq_getElem p 0 hv]
    exact hpos _ (List.getElem_mem hv)
  · rw [List.getD_eq_default p 0 (by omega)]

theorem gatheredP_sum (p dev : List ℚ) (hlen : dev.length = p.length) :
    (gatheredP p dev).sum = p.sum := by
  rw [gatheredP]
  have h1 : ((sortedIdx dev).map (fun v => p.getD v 0)).Perm
      ((List.range dev.length).map (fun v => p.getD v 0)) :=
    (sortedIdx_perm dev).map _
  rw [h1.sum_eq, hlen, range_map_getD]

/-! ## Cumulative sums -/

theorem sum_take_mono (l : List ℚ) (hpos : ∀ x ∈ l, 0 ≤ x) {i j : ℕ} (hij : i ≤ j) :
    (l.take i).sum ≤ (l.take j).sum := by
  have hsplit : l.take j = l.take i ++ ((l.drop i).take (j - i)) := by
    have : j = i + (j - i) := by omega
    rw [this, List.take_add, Nat.add_sub_cancel_left]
  rw [hsplit, List.sum_append]
  have h2 : 0 ≤ ((l.drop i).take (j - i)).sum := by
    apply List.sum_nonneg
    intro x hx
    exact hpos x (List.mem_of_mem_drop (List.mem_of_mem_take hx))
  linarith

theorem sum_take_le (l : List ℚ) (k : ℕ) (hpos : ∀ x ∈ l, 0 ≤ x) :
    (l.take k).sum ≤ l.sum := by
  have := sum_take_mono l hpos (le_of_lt (Nat.lt_succ_self (max k l.length)))
  calc (l.take k).sum ≤ (l.take (max k l.length + 1)).sum :=
      sum_take_mono l hpos (by omega)
    _ = l.sum := by rw [List.take_of_length_le (by omega)]

theorem cumsumQ_length (l : List ℚ) : (cumsumQ l).length = l.length := by
  rw [cumsumQ, List.length_map, List.length_range]

theorem cumsumQ_getD (l : List ℚ) (i : ℕ) (hi : i < l.length) :
    (cumsumQ l).getD i 0 = (l.take (i + 1)).sum := by
  rw [cumsumQ, getD_range_map _ _ _ _ hi, qsum_eq]

/-- When fewer than all cumulative sums fall below the mass, the first one
that does not is at index `countP`, and it reaches the mass. -/
theorem cumsumQ_countP_lt (l : List ℚ) (mass : ℚ) (hpos : ∀ x ∈ l, 0 ≤ x)
    (hL : (cumsumQ l).countP (fun x => decide (x < mass)) < l.length) :
    mass ≤ (l.take ((cumsumQ l).countP (fun x => decide (x < mass)) + 1)).sum := by
  by_contra hcon
  push_neg at hcon
  set L := (cumsumQ l).countP (fun x => decide (x < mass)) with hLdef
  have htake : ∀ x ∈ (cumsumQ l).take (L + 1), decide (x < mass) = true := by
    intro x hx
    rcases List.mem_iff_getElem.mp hx with ⟨i, hilen, hix⟩
    have hiL : i ≤ L := by
      have := List.length_take (L + 1) (cumsumQ l)
      omega
    have hilt : i < (cumsumQ l).length := by
      have := List.length_take (L + 1) (cumsumQ l)
      omega
    have hxi : (cumsumQ l)[i] = x := by
      rw [← hix]
      exact (List.getElem_take _).symm
    have hival : (cumsumQ l).getD i 0 = (l.take (i + 1)).sum :=
      cumsumQ_getD l i (by rw [← cumsumQ_length l]; exact hilt)
    rw [List.getD_eq_getElem _ 0 hilt, hxi] at hival
    have : x ≤ (l.take (L + 1)).sum := by
      rw [hival]
      exact sum_take_mono l hpos (by omega)
    simp only [decide_eq_true_eq]
    exact lt_of_le_of_lt this hcon
  have hcount : L + 1 ≤ (cumsumQ l).countP (fun x => decide (x < mass)) := by
    have hsplit : (cumsumQ l).countP (fun x => decide (x < mass))
        = ((cumsumQ l).take (L + 1)).countP (fun x => decide (x < mass))
          + ((cumsumQ l).drop (L + 1)).countP (fun x => decide (x < mass)) := by
      conv_lhs => rw [← List.take_append_drop (L + 1) (cumsumQ l)]
      exact List.countP_append _ _ _
    have h1 : ((cumsumQ l).take (L + 1)).countP (fun x => decide (x < mass))
        = L + 1 := by
      rw [List.countP_eq_length.mpr htake, List.length_take, cumsumQ_length]
      omega
    omega
  omega

/-! ## The claims about `typical_filter` (C8 and C1) -/

/-- The removal mask actually produced by a successful `typicalRemove`. -/
theorem typicalRemove_eq (mass : ℚ) (p dev : List ℚ)
    (hL : typicalLastInd mass p dev < (sortedDev dev).length) :
    typicalRemove mass 1 p dev = some (scatterSet
      ((sortedDev dev).map (fun c =>
        decide ((sortedDev dev).getD (typicalLastInd mass p dev) 0 < c)))
      (sortedIdx dev)
      ((sortedDev dev).map (fun c =>
        decide ((sortedDev dev).getD (typicalLastInd mass p dev) 0 < c)))) := by
  rw [typicalRemove]
  simp only [if_pos hL]
  rfl

/-- Prefix of a list rebuilt from its `getD` values. -/
theorem range_map_getD_take {α : Type*} (l : List α) (d : α) (k : ℕ)
    (hk : k ≤ l.length) :
    (List.range k).map (fun j => l.getD j d) = l.take k := by
  apply List.ext_getElem?
  intro i
  by_cases hi : i < k
  · rw [List.getElem?_map, List.getElem?_range hi, Option.map_some']
    rw [List.getD_eq_getElem l d (by omega)]
    rw [List.getElem?_eq_getElem
      (show i < (l.take k).length by rw [List.length_take]; omega)]
    congr 1
    exact (List.getElem_take _).symm
  · rw [List.getElem?_eq_none (by simpa using hi),
      List.getElem?_eq_none (by rw [List.length_take]; omega)]

/-- C8 counterexample: on the uniform row (`p` uniform, all deviations
equal — exactly what the float pipeline produces for a uniform logits row,
where every per-entry computation is identical) with `typical_mass = 1/2`,
the source retains all four entries, while the claim's minimal
ascending-deviation prefix reaching the mass has only two entries: the
retained set is not the minimal prefix. -/
theorem c8_typical_mass_counterexample :
    typicalRemove (mkRat 1 2) 1 [mkRat 1 4, mkRat 1 4, mkRat 1 4, mkRat 1 4]
        [0, 0, 0, 0] = some [false, false, false, false] ∧
    specTypicalRemove (mkRat 1 2) [mkRat 1 4, mkRat 1 4, mkRat 1 4, mkRat 1 4]
        [0, 0, 0, 0] = some [false, false, true, true] ∧
    ¬ (typicalRemove (mkRat 1 2) 1 [mkRat 1 4, mkRat 1 4, mkRat 1 4, mkRat 1 4]
        [0, 0, 0, 0]
      = specTypicalRemove (mkRat 1 2) [mkRat 1 4, mkRat 1 4, mkRat 1 4, mkRat 1 4]
        [0, 0, 0, 0]) := by
  refine ⟨by decide, by decide, by decide⟩

/-- C8 (amended): for every probability/deviation pair (hence for every
logits row) with nonnegative probabilities whose total is at least
`typical_mass`, `typical_filter` with `typical_min_tokens = 1` succeeds, the
retained entries carry cumulative original probability at least
`typical_mass`, and the retained set contains the minimal
ascending-deviation prefix reaching that mass (with equality only up to
deviation ties at the boundary). -/
theorem c8_typical_mass (mass : ℚ) (p dev : List ℚ)
    (hlen : dev.length = p.length) (hne : 0 < p.length)
    (hpos : ∀ x ∈ p, 0 ≤ x) (hmass : mass ≤ qsum p) :
    ∃ remove : List Bool, typicalRemove mass 1 p dev = some remove ∧
      mass ≤ retainedMass p remove ∧
      ∀ j, j ≤ typicalLastInd mass p dev →
        remove.getD ((sortedIdx dev).getD j 0) true = false := by
  rw [qsum_eq] at hmass
  have hglen : (gatheredP p dev).length = p.length := by
    rw [gatheredP_length, hlen]
  have hgpos : ∀ x ∈ gatheredP p dev, 0 ≤ x := gatheredP_nonneg p dev hpos
  have hgsum : (gatheredP p dev).sum = p.sum := gatheredP_sum p dev hlen
  have hclen : (cumsumQ (gatheredP p dev)).length = p.length := by
    rw [cumsumQ_length, hglen]
  have hLlt : typicalLastInd mass p dev < p.length := by
    rw [typicalLastInd]
    rcases lt_or_eq_of_le (le_trans (List.countP_le_length _) (le_of_eq hclen)) with
      hlt | heq
    · exact hlt
    · exfalso
      have hall := List.countP_eq_length.mp (by rw [heq, hclen])
      have hlast_lt : (cumsumQ (gatheredP p dev)).getD (p.length - 1) 0 < mass := by
        have hmem : (cumsumQ (gatheredP p dev)).getD (p.length - 1) 0
            ∈ cumsumQ (gatheredP p dev) := by
          rw [List.getD_eq_getElem _ 0 (by omega)]
          exact List.getElem_mem _
        simpa using hall _ hmem
      have hlast_val : (cumsumQ (gatheredP p dev)).getD (p.length - 1) 0
          = (gatheredP p dev).sum := by
        rw [cumsumQ_getD _ _ (by omega), List.take_of_length_le (by omega), hgsum]
      rw [hlast_val, hgsum] at hlast_lt
      linarith
  have hLs : typicalLastInd mass p dev < (sortedDev dev).length := by
    rw [sortedDev_length, hlen]
    exact hLlt
  have hrem := typicalRemove_eq mass p dev hLs
  set L := typicalLastInd mass p dev with hLdef
  set cutoff := (sortedDev dev).getD L 0 with hcut
  set rs := (sortedDev dev).map (fun c => decide (cutoff < c)) with hrs
  have hrslen : rs.length = p.length := by
    rw [hrs, List.length_map, sortedDev_length, hlen]
  have hidxlen : (sortedIdx dev).length = p.length := by
    rw [sortedIdx_length, hlen]
  have hbound : ∀ m ∈ sortedIdx dev, m < rs.length := by
    intro m hm
    rw [hrslen, ← hlen]
    exact sortedIdx_mem_lt dev m hm
  have hnodup := sortedIdx_nodup dev
  have hrsfalse : ∀ j, j ≤ L → ∀ d : Bool, rs.getD j d = false := by
    intro j hj d
    have hjlen : j < (sortedDev dev).length := lt_of_le_of_lt hj hLs
    rw [hrs, List.getD_eq_getElem _ d (by simpa using hjlen), List.getElem_map]
    have hle : (sortedDev dev)[j] ≤ (sortedDev dev)[L] :=
      sorted_getElem_le (sortedDev_sorted dev) hj hLs
    have hcl : cutoff = (sortedDev dev)[L] := by
      rw [hcut, List.getD_eq_getElem _ 0 hLs]
    exact decide_eq_false (by rw [hcl]; exact not_lt.mpr hle)
  have hprefix : ∀ j, j ≤ L →
      (scatterSet rs (sortedIdx dev) rs).getD ((sortedIdx dev).getD j 0) true
        = false := by
    intro j hj
    rw [scatterSet_getD (sortedIdx dev) rs rs hnodup hbound j
      (by rw [hidxlen]; omega) (by rw [hrslen]; omega) true]
    exact hrsfalse j hj true
  refine ⟨scatterSet rs (sortedIdx dev) rs, hrem, ?_, hprefix⟩
  -- the mass bound
  have hpoint : ∀ j, j < p.length →
      (scatterSet rs (sortedIdx dev) rs).getD ((sortedIdx dev).getD j 0) true
        = rs.getD j true := by
    intro j hj
    exact scatterSet_getD (sortedIdx dev) rs rs hnodup hbound j
      (by omega) (by rw [hrslen]; omega) true
  have hreindex : ((List.range p.length).map (fun v =>
      if (scatterSet rs (sortedIdx dev) rs).getD v true then 0 else p.getD v 0)).sum
      = ((List.range p.length).map (fun j =>
        if rs.getD j true then 0 else (gatheredP p dev).getD j 0)).sum := by
    have hperm : ((sortedIdx dev).map (fun v =>
        if (scatterSet rs (sortedIdx dev) rs).getD v true then 0 else p.getD v 0)).Perm
        ((List.range p.length).map (fun v =>
          if (scatterSet rs (sortedIdx dev) rs).getD v true then 0 else p.getD v 0)) := by
      apply List.Perm.map
      rw [← hlen]
      exact sortedIdx_perm dev
    rw [← hperm.sum_eq]
    congr 1
    apply List.ext_getElem?
    intro j
    by_cases hj : j < p.length
    · rw [List.getElem?_map, List.getElem?_map, List.getElem?_range hj,
        List.getElem?_eq_getElem (show j < (sortedIdx dev).length by omega)]
      simp only [Option.map_some']
      congr 1
      have hidxj : (sortedIdx dev)[j] = (sortedIdx dev).getD j 0 :=
        (List.getD_eq_getElem _ 0 (by omega)).symm
      rw [hidxj, hpoint j hj]
      have hgj : (gatheredP p dev).getD j 0 = p.getD ((sortedIdx dev).getD j 0) 0 := by
        rw [gatheredP, List.getD_eq_getElem _ 0
          (show j < ((sortedIdx dev).map (fun v => p.getD v 0)).length by
            rw [List.length_map]; omega), List.getElem_map, hidxj]
      rw [hgj]
    · rw [List.getElem?_eq_none (by rw [List.length_map, hidxlen]; omega),
        List.getElem?_eq_none (by rw [List.length_map, List.length_range]; omega)]
  rw [retainedMass, qsum_eq, hreindex]
  have htail : ∀ x ∈ (List.range p.length).map (fun j =>
      if rs.getD j true then 0 else (gatheredP p dev).getD j 0), 0 ≤ x := by
    intro x hx
    rcases List.mem_map.mp hx with ⟨j, _, rfl⟩
    by_cases hb : rs.getD j true = true
    · rw [if_pos hb]
    · rw [if_neg hb]
      by_cases hjg : j < (gatheredP p dev).length
      · rw [List.getD_eq_getElem _ 0 hjg]
        exact hgpos _ (List.getElem_mem hjg)
      · rw [List.getD_eq_default _ 0 (by omega)]
  have htakeL : ((List.range p.length).map (fun j =>
      if rs.getD j true then 0 else (gatheredP p dev).getD j 0)).take (L + 1)
      = (List.range (L + 1)).map (fun j =>
        if rs.getD j true then 0 else (gatheredP p dev).getD j 0) := by
    rw [← List.map_take, List.take_range]
    rw [min_eq_left (show L + 1 ≤ p.length by omega)]
  have hprefix_eq : (List.range (L + 1)).map (fun j =>
      if rs.getD j true then 0 else (gatheredP p dev).getD j 0)
      = (List.range (L + 1)).map (fun j => (gatheredP p dev).getD j 0) := by
    apply List.map_congr_left
    intro j hj
    have hjL : j ≤ L := by
      have := List.mem_range.mp hj
      omega
    rw [hrsfalse j hjL true]
    simp
  have hsum_prefix : ((List.range (L + 1)).map
      (fun j => (gatheredP p dev).getD j 0)).sum = ((gatheredP p dev).take (L + 1)).sum := by
    rw [range_map_getD_take _ _ _ (by omega)]
  have hmass_prefix : mass ≤ ((gatheredP p dev).take (L + 1)).sum := by
    have := cumsumQ_countP_lt (gatheredP p dev) mass hgpos (by rw [hglen]; exact hLlt)
    simpa [← hLdef, typicalLastInd] using this
  calc mass ≤ ((gatheredP p dev).take (L + 1)).sum := hmass_prefix
    _ = (((List.range p.length).map (fun j =>
        if rs.getD j true then 0 else (gatheredP p dev).getD j 0)).take (L + 1)).sum := by
        rw [htakeL, hprefix_eq, hsum_prefix]
    _ ≤ ((List.range p.length).map (fun j =>
        if rs.getD j true then 0 else (gatheredP p dev).getD j 0)).sum :=
      sum_take_le _ _ htail

/-- Witness for `c8_typical_mass` at `mass = 3/5`,
`p = [1/2, 1/4, 1/4]`, `dev = [1, 2, 3]`. -/
theorem c8_typical_mass_witness :
    (([1, 2, 3] : List ℚ).length = ([mkRat 1 2, mkRat 1 4, mkRat 1 4] : List ℚ).length ∧
      0 < ([mkRat 1 2, mkRat 1 4, mkRat 1 4] : List ℚ).length ∧
      (∀ x ∈ ([mkRat 1 2, mkRat 1 4, mkRat 1 4] : List ℚ), 0 ≤ x) ∧
      mkRat 3 5 ≤ qsum [mkRat 1 2, mkRat 1 4, mkRat 1 4]) ∧
    (∃ remove : List Bool,
      typicalRemove (mkRat 3 5) 1 [mkRat 1 2, mkRat 1 4, mkRat 1 4] [1, 2, 3]
        = some remove ∧
      mkRat 3 5 ≤ retainedMass [mkRat 1 2, mkRat 1 4, mkRat 1 4] remove ∧
      ∀ j, j ≤ typicalLastInd (mkRat 3 5) [mkRat 1 2, mkRat 1 4, mkRat 1 4] [1, 2, 3] →
        remove.getD ((sortedIdx [1, 2, 3]).getD j 0) true = false) :=
  ⟨⟨by decide, by decide, by decide, by decide⟩,
    c8_typical_mass (mkRat 3 5) [mkRat 1 2, mkRat 1 4, mkRat 1 4] [1, 2, 3]
      (by decide) (by decide) (by decide) (by decide)⟩

/-- C1: the `typical_filter(logits, ...)` call of `generate` (line 231)
discards its result, so the logits used for softmax and sampling are always
the unfiltered logits, for any setting of `typical_filtering` — contrary to
the claim that entries outside the retained typical set carry `-inf` before
sampling.  The second and third conjuncts show the discarded filter output
is not trivial: on a concrete row it differs from the logits that are
actually used. -/
theorem c1_typical_filtering_discarded :
    (∀ (tf : Bool) (mass : ℚ) (minTokens : ℕ) (p dev : List ℚ)
      (logits : List (WithBot ℚ)),
      generateUsedLogits tf mass minTokens p dev logits = logits) ∧
    typical_filter (mkRat 1 2) 1 [mkRat 1 2, mkRat 1 4, mkRat 1 4] [0, 1, 2]
        [((1 : ℚ) : WithBot ℚ), ((0 : ℚ) : WithBot ℚ), ((0 : ℚ) : WithBot ℚ)]
      = some [((1 : ℚ) : WithBot ℚ), (⊥ : WithBot ℚ), (⊥ : WithBot ℚ)] ∧
    generateUsedLogits true (mkRat 1 2) 1 [mkRat 1 2, mkRat 1 4, mkRat 1 4] [0, 1, 2]
        [((1 : ℚ) : WithBot ℚ), ((0 : ℚ) : WithBot ℚ), ((0 : ℚ) : WithBot ℚ)]
      ≠ [((1 : ℚ) : WithBot ℚ), (⊥ : WithBot ℚ), (⊥ : WithBot ℚ)] := by
  refine ⟨?_, by decide, by decide⟩
  intro tf mass minTokens p dev logits
  cases tf
  · rfl
  · rfl

/-! ## Pointwise lemmas for the loop combinators -/

theorem zipWith3_length_eq {α β γ δ : Type*} (f : α → β → γ → δ) :
    ∀ (as : List α) (bs : List β) (cs : List γ), as.length = cs.length →
      bs.length = cs.length → (zipWith3 f as bs cs).length = cs.length
  | [], [], [], _, _ => rfl
  | [], _, _ :: _, ha, _ => by simp at ha
  | _ :: _, [], _ :: _, _, hb => by simp at hb
  | _ :: _, _ :: _, [], ha, _ => by simp at ha
  | a :: as, b :: bs, c :: cs, ha, hb => by
    have ha' : as.length = cs.length := by simpa using ha
    have hb' : bs.length = cs.length := by simpa using hb
    simp only [zipWith3, List.length_cons]
    rw [zipWith3_length_eq f as bs cs ha' hb']

theorem zipWith3_getD {α β γ δ : Type*} (f : α → β → γ → δ)
    (da : α) (db : β) (dc : γ) (d : δ) :
    ∀ (as : List α) (bs : List β) (cs : List γ) (j : ℕ), j < as.length →
      j < bs.length → j < cs.length →
      (zipWith3 f as bs cs).getD j d = f (as.getD j da) (bs.getD j db) (cs.getD j dc)
  | [], _, _, j, ha, _, _ => by simp at ha
  | _ :: _, [], _, j, _, hb, _ => by simp at hb
  | _ :: _, _ :: _, [], j, _, _, hc => by simp at hc
  | a :: as, b :: bs, c :: cs, 0, _, _, _ => by
    simp [zipWith3]
  | a :: as, b :: bs, c :: cs, j + 1, ha, hb, hc => by
    simp only [zipWith3, List.getD_cons_succ]
    exact zipWith3_getD f da db dc d as bs cs j (by simpa using ha)
      (by simpa using hb) (by simpa using hc)

theorem zipWith_getD {α β γ : Type*} (f : α → β → γ) (da : α) (db : β) (d : γ) :
    ∀ (as : List α) (bs : List β) (j : ℕ), j < as.length → j < bs.length →
      (List.zipWith f as bs).getD j d = f (as.getD j da) (bs.getD j db)
  | [], _, j, ha, _ => by simp at ha
  | _ :: _, [], j, _, hb => by simp at hb
  | a :: as, b :: bs, 0, _, _ => by simp
  | a :: as, b :: bs, j + 1, ha, hb => by
    simp only [List.zipWith_cons_cons, List.getD_cons_succ]
    exact zipWith_getD f da db d as bs j (by simpa using ha) (by simpa using hb)

/-- Counting `true` respects pointwise implication. -/
theorem count_true_le_of_pointwise : ∀ (a b : List Bool), a.length = b.length →
    (∀ j, j < a.length → a.getD j false = true → b.getD j false = true) →
    a.count true ≤ b.count true
  | [], [], _, _ => le_refl _
  | [], _ :: _, h, _ => by simp at h
  | _ :: _, [], h, _ => by simp at h
  | x :: xs, y :: ys, hlen, h => by
    have htail : xs.count true ≤ ys.count true := by
      apply count_true_le_of_pointwise xs ys (by simpa using hlen)
      intro j hj hx
      have := h (j + 1) (by simpa using hj)
      simpa using this hx
    have hhead : x = true → y = true := by
      intro hx
      have := h 0 (by simp)
      simpa [hx] using this
    cases x with
    | true =>
      have hy := hhead rfl
      subst hy
      simp only [List.count_cons_self]
      omega
    | false =>
      rw [List.count_cons_of_ne (by simp)]
      calc xs.count true ≤ ys.count true := htail
        _ ≤ (y :: ys).count true := by
            rw [List.count_cons]
            split <;> omega

/-- Writing the sentinel at the new mask and counting sentinels recovers the
new mask's count, provided unmasked positions hold non-sentinel tokens. -/
theorem countP_zipWith_maskfill (tok : ℤ) : ∀ (nm : List Bool) (sf : List ℤ),
    nm.length = sf.length →
    (∀ j, j < nm.length → nm.getD j false = false → sf.getD j 0 ≠ tok) →
    (List.zipWith (fun mb sv => if mb then tok else sv) nm sf).countP
      (fun x => decide (x = tok)) = nm.count true
  | [], [], _, _ => rfl
  | [], _ :: _, h, _ => by simp at h
  | _ :: _, [], h, _ => by simp at h
  | mb :: nm, sv :: sf, hlen, h => by
    rw [List.zipWith_cons_cons, List.countP_cons, List.count_cons]
    have htail := countP_zipWith_maskfill tok nm sf (by simpa using hlen)
      (fun j hj hf => by
        have := h (j + 1) (by simpa using hj)
        simpa using this hf)
    rw [htail]
    by_cases hmb : mb = true
    · subst hmb
      simp
    · have hmb' : mb = false := by simpa using hmb
      subst hmb'
      have hsv : sv ≠ tok := by
        have := h 0 (by simp)
        simpa using this
      simp [hsv]

/-- Sampled tokens recombined with committed tokens never contain the
sentinel, provided the oracle draws are in-vocabulary. -/
theorem sampledFlat_ne_tok (tok : ℤ) : ∀ (flat os : List ℤ),
    (∀ s ∈ os, s ≠ tok) →
    ∀ x ∈ zipWith3 (fun m s zm => if m then s else zm)
      (flat.map (fun v => decide (v = tok))) os flat, x ≠ tok
  | [], _, _, x, hx => by simp [zipWith3] at hx
  | _ :: _, [], _, x, hx => by simp [zipWith3] at hx
  | v :: flat, s0 :: os, hos, x, hx => by
    simp only [List.map_cons, zipWith3, List.mem_cons] at hx
    rcases hx with rfl | hx
    · by_cases hv : v = tok
      · simpa [hv] using hos s0 (List.mem_cons_self _ _)
      · simp [hv]
    · exact sampledFlat_ne_tok tok flat os
        (fun s hs => hos s (List.mem_cons_of_mem _ hs)) x hx

/-! ## Inversion of the loop -/

/-- Everything a successful loop iteration determines. -/
theorem genStep_ok {P : Params} {gamma : ℚ → ℚ} {z : List (List ℤ)}
    {startMasked : ℕ} {samplingSteps i : ℕ} {o : StepOracle}
    {zMasked : List (List ℤ)} {sr : StepRes}
    (h : genStep P gamma z startMasked samplingSteps i o zMasked = Except.ok sr) :
    o.sampled.length = (codebook_flatten (zMasked.drop P.nCond)).length ∧
    o.pert.length = (codebook_flatten (zMasked.drop P.nCond)).length ∧
    sr.maskBefore = (codebook_flatten (zMasked.drop P.nCond)).map
      (fun x => decide (x = P.maskTok)) ∧
    sr.sampledFlat = zipWith3 (fun m s zm => if m then s else zm) sr.maskBefore
      o.sampled (codebook_flatten (zMasked.drop P.nCond)) ∧
    sr.conf = List.zipWith (fun m pv => if m then ((pv : ℚ) : WithTop ℚ) else ⊤)
      sr.maskBefore o.pert ∧
    sr.numToMask = (if i ≠ samplingSteps - 1 then
        max 1 (min ((sr.maskBefore.count true : ℤ) - 1)
          (floorQ (qmul (gamma (stepRatio i samplingSteps)) ((startMasked : ℚ)))))
      else floorQ (qmul (gamma (stepRatio i samplingSteps)) ((startMasked : ℚ)))) ∧
    mask_by_random_topk sr.numToMask sr.conf = some sr.newMask ∧
    ∃ g, codebook_unflatten (List.zipWith (fun mb sv => if mb then P.maskTok else sv)
        sr.newMask sr.sampledFlat) P.nInfer = some g ∧
      sr.zMaskedAfter = z.take P.nCond ++ g := by
  simp only [genStep] at h
  split at h
  · split at h
    · exact Except.noConfusion h
    · split at h
      · exact Except.noConfusion h
      · rename_i hlen x1 nm htopk x2 g hunf
        injection h with h
        subst h
        exact ⟨hlen.1, hlen.2, rfl, rfl, rfl, rfl, htopk, g, hunf, rfl⟩
  · exact Except.noConfusion h

theorem genLoop_cons_ok {P : Params} {gamma : ℚ → ℚ} {z : List (List ℤ)}
    {startMasked samplingSteps i : ℕ} {zM : List (List ℤ)} {o : StepOracle}
    {os : List StepOracle} {tr : List StepRes}
    (h : genLoop P gamma z startMasked samplingSteps i zM (o :: os) = Except.ok tr) :
    ∃ sr rest, genStep P gamma z startMasked samplingSteps i o zM = Except.ok sr ∧
      genLoop P gamma z startMasked samplingSteps (i + 1) sr.zMaskedAfter os
        = Except.ok rest ∧
      tr = sr :: rest := by
  simp only [genLoop] at h
  split at h
  · exact Except.noConfusion h
  · rename_i sr hstep
    split at h
    · exact Except.noConfusion h
    · rename_i rest hrest
      injection h with h
      exact ⟨sr, rest, hstep, hrest, h.symm⟩

theorem genLoop_length {P : Params} {gamma : ℚ → ℚ} {z : List (List ℤ)}
    {startMasked samplingSteps : ℕ} :
    ∀ (os : List StepOracle) (i : ℕ) (zM : List (List ℤ)) (tr : List StepRes),
    genLoop P gamma z startMasked samplingSteps i zM os = Except.ok tr →
    tr.length = os.length
  | [], i, zM, tr, h => by
    simp only [genLoop] at h
    injection h with h
    rw [← h]
    rfl
  | o :: os, i, zM, tr, h => by
    rcases genLoop_cons_ok h with ⟨sr, rest, _, hrest, rfl⟩
    simp only [List.length_cons]
    rw [genLoop_length os (i + 1) sr.zMaskedAfter rest hrest]

theorem genLoop_entry {P : Params} {gamma : ℚ → ℚ} {z : List (List ℤ)}
    {startMasked samplingSteps : ℕ} :
    ∀ (os : List StepOracle) (i : ℕ) (zM : List (List ℤ)) (tr : List StepRes),
    genLoop P gamma z startMasked samplingSteps i zM os = Except.ok tr →
    ∀ (j : ℕ), j < tr.length →
    ∃ o zM', o ∈ os ∧
      genStep P gamma z startMasked samplingSteps (i + j) o zM'
        = Except.ok (tr.getD j default)
  | [], i, zM, tr, h, j, hj => by
    simp only [genLoop] at h
    injection h with h
    rw [← h] at hj
    simp at hj
  | o :: os, i, zM, tr, h, j, hj => by
    rcases genLoop_cons_ok h with ⟨sr, rest, hstep, hrest, rfl⟩
    cases j with
    | zero =>
      exact ⟨o, zM, List.mem_cons_self _ _, by simpa using hstep⟩
    | succ jp =>
      rcases genLoop_entry os (i + 1) sr.zMaskedAfter rest hrest jp
          (by simpa using hj) with ⟨o', zM', ho', hstep'⟩
      have harith : i + 1 + jp = i + (jp + 1) := by omega
      rw [harith] at hstep'
      exact ⟨o', zM', List.mem_cons_of_mem _ ho', by simpa using hstep'⟩

theorem genLoop_chain {P : Params} {gamma : ℚ → ℚ} {z : List (List ℤ)}
    {startMasked samplingSteps : ℕ} :
    ∀ (os : List StepOracle) (i : ℕ) (zM : List (List ℤ)) (tr : List StepRes),
    genLoop P gamma z startMasked samplingSteps i zM os = Except.ok tr →
    ∀ (j : ℕ), j + 1 < tr.length →
    ∃ o, o ∈ os ∧
      genStep P gamma z startMasked samplingSteps (i + j + 1) o
        ((tr.getD j default).zMaskedAfter) = Except.ok (tr.getD (j + 1) default)
  | [], i, zM, tr, h, j, hj => by
    simp only [genLoop] at h
    injection h with h
    rw [← h] at hj
    simp at hj
  | o :: os, i, zM, tr, h, j, hj => by
    rcases genLoop_cons_ok h with ⟨sr, rest, hstep, hrest, rfl⟩
    cases j with
    | zero =>
      cases os with
      | nil =>
        simp only [genLoop] at hrest
        injection hrest with hrest
        rw [← hrest] at hj
        simp at hj
      | cons o2 os2 =>
        rcases genLoop_cons_ok hrest with ⟨sr2, rest2, hstep2, _, rfl⟩
        refine ⟨o2, List.mem_cons_of_mem _ (List.mem_cons_self _ _), ?_⟩
        simpa using hstep2
    | succ jp =>
      rcases genLoop_chain os (i + 1) sr.zMaskedAfter rest hrest jp
          (by simpa using hj) with ⟨o', ho', hstep'⟩
      have harith : i + 1 + jp + 1 = i + (jp + 1) + 1 := by omega
      rw [harith] at hstep'
      exact ⟨o', List.mem_cons_of_mem _ ho', by simpa using hstep'⟩

/-- Inversion of a successful `generate` call. -/
theorem generateRun_ok_inv {P : Params} {gamma : ℚ → ℚ} {temp : TempArg}
    {T steps : ℕ} {startT : Option (List (List ℤ))} {mA : MaskArg}
    {oracles : List StepOracle} {run : GenRun}
    (h : generateRun P gamma temp T steps startT mA oracles = Except.ok run) :
    ∃ zMasked : List (List ℤ),
      maskedFill (resolvedStart P T startT)
        (resolveMask P (resolvedStart P T startT) mA) P.maskTok = some zMasked ∧
      run.startMasked = (zMasked.map (fun row =>
        row.countP (fun x => decide (x = P.maskTok)))).sum ∧
      genLoop P gamma (resolvedStart P T startT) run.startMasked steps 0 zMasked
        (oracles.take steps) = Except.ok run.trace ∧
      ∃ last g, run.trace.getLast? = some last ∧
        codebook_unflatten last.sampledFlat P.nInfer = some g ∧
        run.out = (resolvedStart P T startT).take P.nCond ++ g := by
  simp only [generateRun] at h
  split at h
  · exact Except.noConfusion h
  · split at h
    · exact Except.noConfusion h
    · rename_i zMasked hmf
      split at h
      · exact Except.noConfusion h
      · rename_i trace hloop
        split at h
        · exact Except.noConfusion h
        · rename_i last hlast
          split at h
          · exact Except.noConfusion h
          · rename_i g hunf
            injection h with h
            subst h
            exact ⟨zMasked, hmf, rfl, hloop, last, g, hlast, hunf, rfl⟩

/-! ## Further small bridges -/

theorem mask_by_random_topk_length {n : ℤ} {conf : List (WithTop ℚ)} {nm : List Bool}
    (h : mask_by_random_topk n conf = some nm) : nm.length = conf.length := by
  rw [mask_by_random_topk_ite] at h
  by_cases hc : 0 ≤ n ∧ n.toNat < conf.length
  · rw [if_pos hc] at h
    obtain rfl := (Option.some_injective _ h).symm
    simp
  · rw [if_neg hc] at h
    cases h

theorem count_true_map (l : List ℤ) (p : ℤ → Bool) :
    (l.map p).count true = l.countP p := by
  rw [List.count_eq_countP, List.countP_map]
  apply List.countP_congr
  intro a _
  simp

theorem getD_map_of_lt {α β : Type*} (f : α → β) (l : List α) (j : ℕ)
    (hj : j < l.length) (d : β) (da : α) :
    (l.map f).getD j d = f (l.getD j da) := by
  rw [List.getD_eq_getElem _ d (by simpa using hj), List.getElem_map,
    List.getD_eq_getElem _ da hj]

theorem take_append_len {α : Type*} (a b : List α) (n : ℕ) (h : a.length = n) :
    (a ++ b).take n = a := by
  subst h
  exact List.take_left a b

theorem drop_append_len {α : Type*} (a b : List α) (n : ℕ) (h : a.length = n) :
    (a ++ b).drop n = b := by
  subst h
  exact List.drop_left a b

/-! ## Claim theorems about the decoding loop -/

/-- C4: at every loop step `i` other than the final one, the number of
tokens scheduled for re-masking equals
`max(1, min(currently_masked_count - 1, floor(gamma((i+1)/steps) * num_mask_tokens_at_start)))`,
and on the final step the unclamped `floor(gamma(1) * num_mask_tokens_at_start)`
is used (lines 281–291). -/
theorem c4_num_to_mask_schedule {P : Params} {gamma : ℚ → ℚ} {temp : TempArg}
    {T steps : ℕ} {startT : Option (List (List ℤ))} {mA : MaskArg}
    {oracles : List StepOracle} {run : GenRun}
    (hrun : generateRun P gamma temp T steps startT mA oracles = Except.ok run)
    (i : ℕ) (hi : i < run.trace.length) :
    (i ≠ steps - 1 →
      (run.trace.getD i default).numToMask
        = max 1 (min (((run.trace.getD i default).maskBefore.count true : ℤ) - 1)
            ⌊gamma (((i : ℚ) + 1) / (steps : ℚ)) * (run.startMasked : ℚ)⌋)) ∧
    (i = steps - 1 →
      (run.trace.getD i default).numToMask = ⌊gamma 1 * (run.startMasked : ℚ)⌋) := by
  rcases generateRun_ok_inv hrun with ⟨zM, hmf, hsm, hloop, _⟩
  rcases genLoop_entry _ 0 _ _ hloop i hi with ⟨o, zM', ho, hstep⟩
  rw [Nat.zero_add] at hstep
  rcases genStep_ok hstep with ⟨_, _, _, _, _, hnum, _⟩
  have hbridge : floorQ (qmul (gamma (stepRatio i steps)) ((run.startMasked : ℚ)))
      = ⌊gamma (stepRatio i steps) * (run.startMasked : ℚ)⌋ := by
    rw [floorQ_eq, qmul_eq]
  constructor
  · intro hne
    rw [hnum, if_pos hne, hbridge, stepRatio_eq]
  · intro heq
    have hsteps : steps ≠ 0 := by
      have hlen := genLoop_length _ 0 _ _ hloop
      have htk : (oracles.take steps).length ≤ steps := by
        rw [List.length_take]
        omega
      omega
    subst heq
    rw [hnum, if_neg (fun hc => hc rfl), hbridge, stepRatio_last steps hsteps]

set_option maxHeartbeats 1600000 in
/-- Witness for `c4_num_to_mask_schedule` on a concrete two-step run. -/
theorem c4_num_to_mask_schedule_witness :
    (generateRun ⟨1, 0, 4⟩ gammaOneSub (TempArg.float 8) 3 2 (some [[4, 4, 4]])
        MaskArg.none [⟨[1, 2, 3], [-1, -2, -3]⟩, ⟨[0, 1, 2], [0, 0, 0]⟩]
      = Except.ok (runOf (generateRun ⟨1, 0, 4⟩ gammaOneSub (TempArg.float 8) 3 2
        (some [[4, 4, 4]]) MaskArg.none
        [⟨[1, 2, 3], [-1, -2, -3]⟩, ⟨[0, 1, 2], [0, 0, 0]⟩])) ∧
      0 < (runOf (generateRun ⟨1, 0, 4⟩ gammaOneSub (TempArg.float 8) 3 2
        (some [[4, 4, 4]]) MaskArg.none
        [⟨[1, 2, 3], [-1, -2, -3]⟩, ⟨[0, 1, 2], [0, 0, 0]⟩])).trace.length) ∧
    ((0 ≠ 2 - 1 →
      ((runOf (generateRun ⟨1, 0, 4⟩ gammaOneSub (TempArg.float 8) 3 2
          (some [[4, 4, 4]]) MaskArg.none
          [⟨[1, 2, 3], [-1, -2, -3]⟩, ⟨[0, 1, 2], [0, 0, 0]⟩])).trace.getD 0
            default).numToMask
        = max 1 (min ((((runOf (generateRun ⟨1, 0, 4⟩ gammaOneSub (TempArg.float 8) 3 2
            (some [[4, 4, 4]]) MaskArg.none
            [⟨[1, 2, 3], [-1, -2, -3]⟩, ⟨[0, 1, 2], [0, 0, 0]⟩])).trace.getD 0
              default).maskBefore.count true : ℤ) - 1)
            ⌊gammaOneSub ((((0 : ℕ) : ℚ) + 1) / ((2 : ℕ) : ℚ))
              * ((runOf (generateRun ⟨1, 0, 4⟩ gammaOneSub (TempArg.float 8) 3 2
                (some [[4, 4, 4]]) MaskArg.none
                [⟨[1, 2, 3], [-1, -2, -3]⟩, ⟨[0, 1, 2], [0, 0, 0]⟩])).startMasked : ℚ)⌋)) ∧
    (0 = 2 - 1 →
      ((runOf (generateRun ⟨1, 0, 4⟩ gammaOneSub (TempArg.float 8) 3 2
          (some [[4, 4, 4]]) MaskArg.none
          [⟨[1, 2, 3], [-1, -2, -3]⟩, ⟨[0, 1, 2], [0, 0, 0]⟩])).trace.getD 0
            default).numToMask
        = ⌊gammaOneSub 1 * ((runOf (generateRun ⟨1, 0, 4⟩ gammaOneSub (TempArg.float 8) 3 2
            (some [[4, 4, 4]]) MaskArg.none
            [⟨[1, 2, 3], [-1, -2, -3]⟩, ⟨[0, 1, 2], [0, 0, 0]⟩])).startMasked : ℚ)⌋)) :=
  ⟨⟨by decide, by decide⟩,
    @c4_num_to_mask_schedule ⟨1, 0, 4⟩ gammaOneSub (TempArg.float 8) 3 2
      (some [[4, 4, 4]]) MaskArg.none
      [⟨[1, 2, 3], [-1, -2, -3]⟩, ⟨[0, 1, 2], [0, 0, 0]⟩]
      (runOf (generateRun ⟨1, 0, 4⟩ gammaOneSub (TempArg.float 8) 3 2
        (some [[4, 4, 4]]) MaskArg.none
        [⟨[1, 2, 3], [-1, -2, -3]⟩, ⟨[0, 1, 2], [0, 0, 0]⟩]))
      (by decide) 0 (by decide)⟩

/-- C7: at every step of `generate`, every flattened position that is not
masked at the start of the step has its confidence set to `inf` before
remasking (line 276), and the mask returned by `mask_by_random_topk` is
false at every such position: an unmasked position is never re-masked
within the step. -/
theorem c7_unmasked_never_remasked {P : Params} {gamma : ℚ → ℚ} {temp : TempArg}
    {T steps : ℕ} {startT : Option (List (List ℤ))} {mA : MaskArg}
    {oracles : List StepOracle} {run : GenRun}
    (hrun : generateRun P gamma temp T steps startT mA oracles = Except.ok run)
    (i j : ℕ) (hi : i < run.trace.length)
    (hj : j < (run.trace.getD i default).maskBefore.length)
    (hum : (run.trace.getD i default).maskBefore.getD j false = false) :
    (run.trace.getD i default).conf.getD j ⊤ = ⊤ ∧
    (run.trace.getD i default).newMask.getD j false = false := by
  rcases generateRun_ok_inv hrun with ⟨zM, _, _, hloop, _⟩
  rcases genLoop_entry _ 0 _ _ hloop i hi with ⟨o, zM', ho, hstep⟩
  rcases genStep_ok hstep with ⟨hs1, hs2, hmask, _, hconf, _, htopk, _⟩
  have hmlen : (run.trace.getD i default).maskBefore.length
      = (codebook_flatten (zM'.drop P.nCond)).length := by
    rw [hmask, List.length_map]
  have hplen : j < o.pert.length := by
    rw [hs2]
    omega
  have hconfj : (run.trace.getD i default).conf.getD j ⊤ = ⊤ := by
    rw [hconf, zipWith_getD _ false 0 ⊤ _ _ j (by omega) hplen, hum]
    simp
  refine ⟨hconfj, ?_⟩
  have hclen : (run.trace.getD i default).conf.length
      = (run.trace.getD i default).maskBefore.length := by
    rw [hconf, List.length_zipWith]
    omega
  exact mask_by_random_topk_top htopk j (by omega) hconfj

set_option maxHeartbeats 1600000 in
/-- Witness for `c7_unmasked_never_remasked` on the concrete two-step run:
at step 1, position 0 is already committed. -/
theorem c7_unmasked_never_remasked_witness :
    ((generateRun ⟨1, 0, 4⟩ gammaOneSub (TempArg.float 8) 3 2 (some [[4, 4, 4]])
        MaskArg.none [⟨[1, 2, 3], [-1, -2, -3]⟩, ⟨[0, 1, 2], [0, 0, 0]⟩]
      = Except.ok (runOf (generateRun ⟨1, 0, 4⟩ gammaOneSub (TempArg.float 8) 3 2
        (some [[4, 4, 4]]) MaskArg.none
        [⟨[1, 2, 3], [-1, -2, -3]⟩, ⟨[0, 1, 2], [0, 0, 0]⟩]))) ∧
      (1 < (runOf (generateRun ⟨1, 0, 4⟩ gammaOneSub (TempArg.float 8) 3 2
        (some [[4, 4, 4]]) MaskArg.none
        [⟨[1, 2, 3], [-1, -2, -3]⟩, ⟨[0, 1, 2], [0, 0, 0]⟩])).trace.length) ∧
      (0 < ((runOf (generateRun ⟨1, 0, 4⟩ gammaOneSub (TempArg.float 8) 3 2
        (some [[4, 4, 4]]) MaskArg.none
        [⟨[1, 2, 3], [-1, -2, -3]⟩, ⟨[0, 1, 2], [0, 0, 0]⟩])).trace.getD 1
          default).maskBefore.length) ∧
      (((runOf (generateRun ⟨1, 0, 4⟩ gammaOneSub (TempArg.float 8) 3 2
        (some [[4, 4, 4]]) MaskArg.none
        [⟨[1, 2, 3], [-1, -2, -3]⟩, ⟨[0, 1, 2], [0, 0, 0]⟩])).trace.getD 1
          default).maskBefore.getD 0 false = false)) ∧
    (((runOf (generateRun ⟨1, 0, 4⟩ gammaOneSub (TempArg.float 8) 3 2
        (some [[4, 4, 4]]) MaskArg.none
        [⟨[1, 2, 3], [-1, -2, -3]⟩, ⟨[0, 1, 2], [0, 0, 0]⟩])).trace.getD 1
          default).conf.getD 0 ⊤ = ⊤ ∧
      ((runOf (generateRun ⟨1, 0, 4⟩ gammaOneSub (TempArg.float 8) 3 2
        (some [[4, 4, 4]]) MaskArg.none
        [⟨[1, 2, 3], [-1, -2, -3]⟩, ⟨[0, 1, 2], [0, 0, 0]⟩])).trace.getD 1
          default).newMask.getD 0 false = false) :=
  ⟨⟨by decide, by decide, by decide, by decide⟩,
    @c7_unmasked_never_remasked ⟨1, 0, 4⟩ gammaOneSub (TempArg.float 8) 3 2
      (some [[4, 4, 4]]) MaskArg.none
      [⟨[1, 2, 3], [-1, -2, -3]⟩, ⟨[0, 1, 2], [0, 0, 0]⟩]
      (runOf (generateRun ⟨1, 0, 4⟩ gammaOneSub (TempArg.float 8) 3 2
        (some [[4, 4, 4]]) MaskArg.none
        [⟨[1, 2, 3], [-1, -2, -3]⟩, ⟨[0, 1, 2], [0, 0, 0]⟩]))
      (by decide) 1 0 (by decide) (by decide) (by decide)⟩

/-- C6: the conditioning codebooks of the returned grid are bit-identical to
those of the caller-provided `start_tokens` (lines 315–319); the evolving
`z_masked` re-prepends the untouched conditioning rows at every step
(lines 309–311); and the default mask zeroes the conditioning rows
(lines 183–185), so with the default mask those channels are never marked
masked at any step (the per-step masks range over the non-conditioning flat
region only). -/
theorem c6_conditioning_invariance {P : Params} {gamma : ℚ → ℚ} {temp : TempArg}
    {T steps : ℕ} {z0 : List (List ℤ)} {mA : MaskArg}
    {oracles : List StepOracle} {run : GenRun}
    (hrun : generateRun P gamma temp T steps (some z0) mA oracles = Except.ok run)
    (hz : P.nCond ≤ z0.length) :
    run.out.take P.nCond = z0.take P.nCond ∧
    (∀ sr ∈ run.trace, sr.zMaskedAfter.take P.nCond = z0.take P.nCond) ∧
    (∀ row ∈ (resolveMask P z0 MaskArg.none).take P.nCond, ∀ x ∈ row, x = 0) := by
  have hres : resolvedStart P T (some z0) = z0 := rfl
  rcases generateRun_ok_inv hrun with ⟨zM, hmf, hsm, hloop, last, g, hlast, hunf, hout⟩
  have htl : (z0.take P.nCond).length = P.nCond := by
    rw [List.length_take]
    omega
  refine ⟨?_, ?_, ?_⟩
  · rw [hout, hres, take_append_len _ _ _ htl]
  · intro sr hsr
    rcases List.mem_iff_getElem.mp hsr with ⟨i, hi, hisr⟩
    rcases genLoop_entry _ 0 _ _ hloop i hi with ⟨o, zM', ho, hstep⟩
    rcases genStep_ok hstep with ⟨_, _, _, _, _, _, _, g', _, hafter⟩
    have hsrd : run.trace.getD i default = sr := by
      rw [List.getD_eq_getElem _ default hi, hisr]
    rw [← hsrd, hafter, hres, take_append_len _ _ _ htl]
  · intro row hrow x hx
    rcases List.mem_iff_getElem.mp hrow with ⟨c, hc, hcr⟩
    have hclen : c < P.nCond := by
      have := List.length_take P.nCond (resolveMask P z0 MaskArg.none)
      omega
    have hcres : c < (resolveMask P z0 MaskArg.none).length := by
      have := List.length_take P.nCond (resolveMask P z0 MaskArg.none)
      omega
    have hrowval : row = (resolveMask P z0 MaskArg.none)[c] := by
      rw [← hcr]
      exact List.getElem_take _
    have hreslen : (resolveMask P z0 MaskArg.none).length = z0.length := by
      simp [resolveMask, List.length_zipWith]
    have hcz : c < z0.length := by omega
    have hrowval2 : row = z0[c].map (fun _ => if c < P.nCond then (0 : ℤ) else 1) := by
      rw [hrowval]
      simp only [resolveMask]
      rw [List.getElem_zipWith ..]
      simp only [List.getElem_range]
    rw [hrowval2] at hx
    rcases List.mem_map.mp hx with ⟨y, _, rfl⟩
    rw [if_pos hclen]

set_option maxHeartbeats 1600000 in
/-- Witness for `c6_conditioning_invariance` on a concrete run with one
conditioning codebook. -/
theorem c6_conditioning_invariance_witness :
    ((generateRun ⟨2, 1, 4⟩ gammaOneSub (TempArg.float 8) 2 1 (some [[1, 2], [4, 4]])
        MaskArg.none [⟨[2, 3], [0, 0]⟩]
      = Except.ok (runOf (generateRun ⟨2, 1, 4⟩ gammaOneSub (TempArg.float 8) 2 1
        (some [[1, 2], [4, 4]]) MaskArg.none [⟨[2, 3], [0, 0]⟩]))) ∧
      (1 ≤ ([[1, 2], [4, 4]] : List (List ℤ)).length)) ∧
    ((runOf (generateRun ⟨2, 1, 4⟩ gammaOneSub (TempArg.float 8) 2 1
        (some [[1, 2], [4, 4]]) MaskArg.none [⟨[2, 3], [0, 0]⟩])).out.take 1
      = ([[1, 2], [4, 4]] : List (List ℤ)).take 1 ∧
      (∀ sr ∈ (runOf (generateRun ⟨2, 1, 4⟩ gammaOneSub (TempArg.float 8) 2 1
        (some [[1, 2], [4, 4]]) MaskArg.none [⟨[2, 3], [0, 0]⟩])).trace,
        sr.zMaskedAfter.take 1 = ([[1, 2], [4, 4]] : List (List ℤ)).take 1) ∧
      (∀ row ∈ (resolveMask ⟨2, 1, 4⟩ [[1, 2], [4, 4]] MaskArg.none).take 1,
        ∀ x ∈ row, x = 0)) :=
  ⟨⟨by decide, by decide⟩,
    @c6_conditioning_invariance ⟨2, 1, 4⟩ gammaOneSub (TempArg.float 8) 2 1
      [[1, 2], [4, 4]] MaskArg.none [⟨[2, 3], [0, 0]⟩]
      (runOf (generateRun ⟨2, 1, 4⟩ gammaOneSub (TempArg.float 8) 2 1
        (some [[1, 2], [4, 4]]) MaskArg.none [⟨[2, 3], [0, 0]⟩]))
      (by decide) (by decide)⟩

theorem getLast?_getD {α : Type*} [Inhabited α] {l : List α} {a : α}
    (h : l.getLast? = some a) :
    0 < l.length ∧ a = l.getD (l.length - 1) default := by
  have hne : l ≠ [] := by
    intro he
    rw [he] at h
    cases h
  have hpos : 0 < l.length := List.length_pos.mpr hne
  rw [List.getLast?_eq_getElem?] at h
  rw [List.getElem?_eq_getElem (show l.length - 1 < l.length by omega)] at h
  refine ⟨hpos, ?_⟩
  rw [List.getD_eq_getElem _ default (show l.length - 1 < l.length by omega)]
  exact (Option.some_injective _ h).symm

/-- C5 (amended): for every successful run of `generate` with a schedule
satisfying `gamma(1) = 0` and monotone non-increasing, and in-vocabulary
oracle draws: within every step the new mask re-masks a subset of the
positions masked at the start of the step; the masked count carries over
exactly from one step to the next (so the count is non-increasing step to
step); the mask after the final step has exactly 0 masked positions; and
the predicted-codebook region of the returned grid contains no
MASK_SENTINEL.  (The conditioning rows are returned verbatim and may
contain the sentinel if the caller's start tokens did — see the
counterexample.) -/
theorem c5_mask_convergence {P : Params} {gamma : ℚ → ℚ} {temp : TempArg}
    {T steps : ℕ} {startT : Option (List (List ℤ))} {mA : MaskArg}
    {oracles : List StepOracle} {run : GenRun}
    (hrun : generateRun P gamma temp T steps startT mA oracles = Except.ok run)
    (hz : P.nCond ≤ (resolvedStart P T startT).length)
    (hg1 : gamma 1 = 0)
    (hmono : ∀ a b : ℚ, a ≤ b → gamma b ≤ gamma a)
    (hsamp : ∀ o ∈ oracles, ∀ s ∈ o.sampled, 0 ≤ s ∧ s < (P.vocabSize : ℤ))
    (hosteps : steps ≤ oracles.length) :
    (∀ i, i < run.trace.length →
      (run.trace.getD i default).newMask.count true
        ≤ (run.trace.getD i default).maskBefore.count true) ∧
    (∀ i, i + 1 < run.trace.length →
      (run.trace.getD (i + 1) default).maskBefore.count true
        = (run.trace.getD i default).newMask.count true) ∧
    (∀ last, run.trace.getLast? = some last → last.newMask.count true = 0) ∧
    (∀ x ∈ (run.out.drop P.nCond).join, x ≠ P.maskTok) := by
  rcases generateRun_ok_inv hrun with
    ⟨zM, hmf, hsm, hloop, last0, gout, hlast0, hunfout, hout⟩
  refine ⟨?_, ?_, ?_, ?_⟩
  · -- within one step the new mask is a subset of the old one
    intro i hi
    rcases genLoop_entry _ 0 _ _ hloop i hi with ⟨o, zM', ho, hstep⟩
    rw [Nat.zero_add] at hstep
    rcases genStep_ok hstep with ⟨hs1, hs2, hmask, hsf, hconf, hnum, htopk, _⟩
    have hmlen : (run.trace.getD i default).maskBefore.length
        = (codebook_flatten (zM'.drop P.nCond)).length := by
      rw [hmask, List.length_map]
    have hclen : (run.trace.getD i default).conf.length
        = (run.trace.getD i default).maskBefore.length := by
      rw [hconf, List.length_zipWith]
      omega
    have hnmlen : (run.trace.getD i default).newMask.length
        = (run.trace.getD i default).maskBefore.length := by
      rw [mask_by_random_topk_length htopk, hclen]
    apply count_true_le_of_pointwise _ _ hnmlen
    intro j hj hnmj
    by_contra hmb
    have hmbf : (run.trace.getD i default).maskBefore.getD j false = false := by
      cases hval : (run.trace.getD i default).maskBefore.getD j false
      · rfl
      · exact absurd hval hmb
    have hconfj : (run.trace.getD i default).conf.getD j ⊤ = ⊤ := by
      rw [hconf, zipWith_getD _ false 0 ⊤ _ _ j (by omega) (by rw [hs2]; omega), hmbf]
      simp
    have hfalse := mask_by_random_topk_top htopk j (by omega) hconfj
    rw [hfalse] at hnmj
    cases hnmj
  · -- the masked count carries over exactly to the next step
    intro i hi1
    have hi : i < run.trace.length := by omega
    rcases genLoop_entry _ 0 _ _ hloop i hi with ⟨o, zM', ho, hstep⟩
    rw [Nat.zero_add] at hstep
    rcases genStep_ok hstep with ⟨hs1, hs2, hmask, hsf, hconf, hnum, htopk, g, hunf, hafter⟩
    rcases genLoop_chain _ 0 _ _ hloop i hi1 with ⟨o2, ho2, hstep2⟩
    rcases genStep_ok hstep2 with ⟨_, _, hmask2, _, _, _, _, _⟩
    have hmlen : (run.trace.getD i default).maskBefore.length
        = (codebook_flatten (zM'.drop P.nCond)).length := by
      rw [hmask, List.length_map]
    have hsflen : (run.trace.getD i default).sampledFlat.length
        = (codebook_flatten (zM'.drop P.nCond)).length := by
      rw [hsf]
      exact zipWith3_length_eq _ _ _ _ hmlen hs1
    have hclen : (run.trace.getD i default).conf.length
        = (run.trace.getD i default).maskBefore.length := by
      rw [hconf, List.length_zipWith]
      omega
    have hnmlen : (run.trace.getD i default).newMask.length
        = (codebook_flatten (zM'.drop P.nCond)).length := by
      rw [mask_by_random_topk_length htopk, hclen, hmlen]
    have hdrop : (run.trace.getD i default).zMaskedAfter.drop P.nCond = g := by
      rw [hafter]
      exact drop_append_len _ _ _ (by rw [List.length_take]; omega)
    have hflatg : codebook_flatten g
        = List.zipWith (fun mb sv => if mb then P.maskTok else sv)
          (run.trace.getD i default).newMask (run.trace.getD i default).sampledFlat :=
      codebook_flatten_unflatten hunf
    calc (run.trace.getD (i + 1) default).maskBefore.count true
        = (codebook_flatten ((run.trace.getD i default).zMaskedAfter.drop P.nCond)).countP
            (fun x => decide (x = P.maskTok)) := by
          rw [hmask2, count_true_map]
      _ = (List.zipWith (fun mb sv => if mb then P.maskTok else sv)
            (run.trace.getD i default).newMask
            (run.trace.getD i default).sampledFlat).countP
            (fun x => decide (x = P.maskTok)) := by
          rw [hdrop, hflatg]
      _ = (run.trace.getD i default).newMask.count true := by
          apply countP_zipWith_maskfill _ _ _ (by omega)
          intro j hj _
          have hsfj : (run.trace.getD i default).sampledFlat.getD j 0
              = (if (run.trace.getD i default).maskBefore.getD j false
                then o.sampled.getD j 0
                else (codebook_flatten (zM'.drop P.nCond)).getD j 0) := by
            rw [hsf]
            exact zipWith3_getD _ false 0 0 0 _ _ _ j (by omega) (by omega) (by omega)
          by_cases hmb : (run.trace.getD i default).maskBefore.getD j false = true
          · rw [hsfj, if_pos hmb]
            have hjs : j < o.sampled.length := by omega
            have hmem : o.sampled.getD j 0 ∈ o.sampled := by
              rw [List.getD_eq_getElem _ 0 hjs]
              exact List.getElem_mem hjs
            rcases hsamp o (List.mem_of_mem_take ho) _ hmem with ⟨_, hV⟩
            intro hEq
            rw [hEq] at hV
            exact absurd hV (lt_irrefl _)
          · have hmbf : (run.trace.getD i default).maskBefore.getD j false = false := by
              cases hval : (run.trace.getD i default).maskBefore.getD j false
              · rfl
              · exact absurd hval hmb
            rw [hsfj, hmbf, if_neg (by simp)]
            have hdec : (run.trace.getD i default).maskBefore.getD j false
                = decide ((codebook_flatten (zM'.drop P.nCond)).getD j 0 = P.maskTok) := by
              rw [hmask]
              exact getD_map_of_lt _ _ j (by omega) false 0
            rw [hmbf] at hdec
            exact of_decide_eq_false hdec.symm
  · -- after the final step no position is masked
    intro last hlastEq
    rcases getLast?_getD hlastEq with ⟨hpos, hlastD⟩
    have hlen := genLoop_length _ 0 _ _ hloop
    have htklen : (oracles.take steps).length = steps := by
      rw [List.length_take]
      omega
    have hlensteps : run.trace.length = steps := by omega
    have hstepspos : steps ≠ 0 := by omega
    rcases genLoop_entry _ 0 _ _ hloop (run.trace.length - 1) (by omega) with
      ⟨o, zM', ho, hstep⟩
    rw [Nat.zero_add, hlensteps] at hstep
    rcases genStep_ok hstep with ⟨_, _, _, _, _, hnum, htopk, _⟩
    have hnum0 : (run.trace.getD (run.trace.length - 1) default).numToMask = 0 := by
      rw [hlensteps, hnum, if_neg (fun hc => hc rfl), stepRatio_last _ hstepspos, hg1,
        floorQ_eq, qmul_eq, zero_mul, Int.floor_zero]
    rw [hlensteps] at hlastD
    rw [hlastD]
    apply mask_by_random_topk_zero
    rw [← hnum0, hlensteps]
    exact htopk
  · -- the predicted region of the output holds no sentinel
    intro x hx
    rw [hout, drop_append_len _ _ _ (by rw [List.length_take]; omega)] at hx
    rcases List.mem_join.mp hx with ⟨row, hrow, hxr⟩
    have hxflat := codebook_unflatten_mem hunfout row hrow x hxr
    rcases getLast?_getD hlast0 with ⟨hpos, hlastD⟩
    rcases genLoop_entry _ 0 _ _ hloop (run.trace.length - 1) (by omega) with
      ⟨o, zM', ho, hstep⟩
    rw [Nat.zero_add] at hstep
    rcases genStep_ok hstep with ⟨hs1, _, hmask, hsf, _⟩
    have hsf2 : last0.sampledFlat = zipWith3 (fun m s zm => if m then s else zm)
        ((codebook_flatten (zM'.drop P.nCond)).map (fun v => decide (v = P.maskTok)))
        o.sampled (codebook_flatten (zM'.drop P.nCond)) := by
      rw [hlastD, hsf, hmask]
    rw [hlastD] at hxflat
    rw [← hlastD] at hxflat
    rw [hsf2] at hxflat
    apply sampledFlat_ne_tok P.maskTok _ _ ?_ x hxflat
    intro s hs
    rcases hsamp o (List.mem_of_mem_take ho) s hs with ⟨_, hV⟩
    intro hEq
    rw [hEq] at hV
    exact absurd hV (lt_irrefl _)

/-- C5 counterexample: a run whose caller-provided start tokens hold the
sentinel in the conditioning channel (exactly what `start_tokens=None` with
`n_conditioning_codebooks > 0` produces).  The schedule `gamma(q) = 1 - q`
satisfies `gamma(1) = 0` and is non-increasing, the run completes, yet the
returned token grid still contains the MASK sentinel (in its conditioning
channel, which `generate` returns verbatim). -/
theorem c5_mask_convergence_counterexample :
    isOkE (generateRun ⟨2, 1, 4⟩ gammaOneSub (TempArg.float 8) 2 1
        (some [[4, 4], [4, 4]]) MaskArg.none [⟨[2, 3], [0, 0]⟩]) = true ∧
    (runOf (generateRun ⟨2, 1, 4⟩ gammaOneSub (TempArg.float 8) 2 1
        (some [[4, 4], [4, 4]]) MaskArg.none [⟨[2, 3], [0, 0]⟩])).out
      = [[4, 4], [2, 3]] ∧
    (⟨2, 1, 4⟩ : Params).maskTok ∈ (runOf (generateRun ⟨2, 1, 4⟩ gammaOneSub
        (TempArg.float 8) 2 1 (some [[4, 4], [4, 4]]) MaskArg.none
        [⟨[2, 3], [0, 0]⟩])).out.join ∧
    gammaOneSub 1 = 0 ∧
    (∀ a b : ℚ, a ≤ b → gammaOneSub b ≤ gammaOneSub a) := by
  refine ⟨by decide, by decide, by decide, by decide, fun a b hab => ?_⟩
  rw [gammaOneSub_eq, gammaOneSub_eq]
  linarith

set_option maxHeartbeats 1600000 in
/-- Witness for `c5_mask_convergence` on the concrete two-step run. -/
theorem c5_mask_convergence_witness :
    ((generateRun ⟨1, 0, 4⟩ gammaOneSub (TempArg.float 8) 3 2 (some [[4, 4, 4]])
        MaskArg.none [⟨[1, 2, 3], [-1, -2, -3]⟩, ⟨[0, 1, 2], [0, 0, 0]⟩]
      = Except.ok (runOf (generateRun ⟨1, 0, 4⟩ gammaOneSub (TempArg.float 8) 3 2
        (some [[4, 4, 4]]) MaskArg.none
        [⟨[1, 2, 3], [-1, -2, -3]⟩, ⟨[0, 1, 2], [0, 0, 0]⟩]))) ∧
      ((⟨1, 0, 4⟩ : Params).nCond
        ≤ (resolvedStart ⟨1, 0, 4⟩ 3 (some [[4, 4, 4]])).length) ∧
      gammaOneSub 1 = 0 ∧
      (∀ o ∈ ([⟨[1, 2, 3], [-1, -2, -3]⟩, ⟨[0, 1, 2], [0, 0, 0]⟩] : List StepOracle),
        ∀ s ∈ o.sampled, 0 ≤ s ∧ s < (((⟨1, 0, 4⟩ : Params).vocabSize : ℤ))) ∧
      2 ≤ ([⟨[1, 2, 3], [-1, -2, -3]⟩, ⟨[0, 1, 2], [0, 0, 0]⟩] : List StepOracle).length) ∧
    ((∀ i, i < (runOf (generateRun ⟨1, 0, 4⟩ gammaOneSub (TempArg.float 8) 3 2
        (some [[4, 4, 4]]) MaskArg.none
        [⟨[1, 2, 3], [-1, -2, -3]⟩, ⟨[0, 1, 2], [0, 0, 0]⟩])).trace.length →
      ((runOf (generateRun ⟨1, 0, 4⟩ gammaOneSub (TempArg.float 8) 3 2
        (some [[4, 4, 4]]) MaskArg.none
        [⟨[1, 2, 3], [-1, -2, -3]⟩, ⟨[0, 1, 2], [0, 0, 0]⟩])).trace.getD i
          default).newMask.count true
        ≤ ((runOf (generateRun ⟨1, 0, 4⟩ gammaOneSub (TempArg.float 8) 3 2
          (some [[4, 4, 4]]) MaskArg.none
          [⟨[1, 2, 3], [-1, -2, -3]⟩, ⟨[0, 1, 2], [0, 0, 0]⟩])).trace.getD i
            default).maskBefore.count true) ∧
    (∀ i, i + 1 < (runOf (generateRun ⟨1, 0, 4⟩ gammaOneSub (TempArg.float 8) 3 2
        (some [[4, 4, 4]]) MaskArg.none
        [⟨[1, 2, 3], [-1, -2, -3]⟩, ⟨[0, 1, 2], [0, 0, 0]⟩])).trace.length →
      ((runOf (generateRun ⟨1, 0, 4⟩ gammaOneSub (TempArg.float 8) 3 2
        (some [[4, 4, 4]]) MaskArg.none
        [⟨[1, 2, 3], [-1, -2, -3]⟩, ⟨[0, 1, 2], [0, 0, 0]⟩])).trace.getD (i + 1)
          default).maskBefore.count true
        = ((runOf (generateRun ⟨1, 0, 4⟩ gammaOneSub (TempArg.float 8) 3 2
          (some [[4, 4, 4]]) MaskArg.none
          [⟨[1, 2, 3], [-1, -2, -3]⟩, ⟨[0, 1, 2], [0, 0, 0]⟩])).trace.getD i
            default).newMask.count true) ∧
    (∀ last, (runOf (generateRun ⟨1, 0, 4⟩ gammaOneSub (TempArg.float 8) 3 2
        (some [[4, 4, 4]]) MaskArg.none
        [⟨[1, 2, 3], [-1, -2, -3]⟩, ⟨[0, 1, 2], [0, 0, 0]⟩])).trace.getLast?
          = some last → last.newMask.count true = 0) ∧
    (∀ x ∈ ((runOf (generateRun ⟨1, 0, 4⟩ gammaOneSub (TempArg.float 8) 3 2
        (some [[4, 4, 4]]) MaskArg.none
        [⟨[1, 2, 3], [-1, -2, -3]⟩, ⟨[0, 1, 2], [0, 0, 0]⟩])).out.drop
          (⟨1, 0, 4⟩ : Params).nCond).join,
      x ≠ (⟨1, 0, 4⟩ : Params).maskTok)) :=
  ⟨⟨by decide, by decide, by decide, by decide, by decide⟩,
    @c5_mask_convergence ⟨1, 0, 4⟩ gammaOneSub (TempArg.float 8) 3 2
      (some [[4, 4, 4]]) MaskArg.none
      [⟨[1, 2, 3], [-1, -2, -3]⟩, ⟨[0, 1, 2], [0, 0, 0]⟩]
      (runOf (generateRun ⟨1, 0, 4⟩ gammaOneSub (TempArg.float 8) 3 2
        (some [[4, 4, 4]]) MaskArg.none
        [⟨[1, 2, 3], [-1, -2, -3]⟩, ⟨[0, 1, 2], [0, 0, 0]⟩]))
      (by decide) (by decide) (by decide)
      (fun a b hab => by rw [gammaOneSub_eq, gammaOneSub_eq]; linarith)
      (by decide) (by decide)⟩

/-- C9 (amended): `generate` performs no explicit validation of
`sampling_steps` or of the mask / start-token shapes.  With
`sampling_steps = 0` the loop body never runs and line 316 then reads the
never-assigned local `sampled_z`, so the call dies with a `NameError` only
after the (empty) loop — not with an explicit pre-loop check. -/
theorem c9_no_validation (P : Params) (gamma : ℚ → ℚ) (q : ℚ)
    (timeSteps : ℕ) (startT : Option (List (List ℤ))) (mA : MaskArg)
    (oracles : List StepOracle) (zM : List (List ℤ))
    (hmf : maskedFill (resolvedStart P timeSteps startT)
        (resolveMask P (resolvedStart P timeSteps startT) mA) P.maskTok
      = some zM) :
    generateRun P gamma (TempArg.float q) timeSteps 0 startT mA oracles
      = Except.error GenErr.nameError := by
  simp only [generateRun, TempArg.isFloat]
  rw [if_neg (by simp)]
  rw [hmf]
  rfl

/-- Witness for `c9_no_validation`: a concrete zero-step call. -/
theorem c9_no_validation_witness :
    (maskedFill (resolvedStart ⟨1, 0, 4⟩ 3 (some [[4, 4, 4]]))
        (resolveMask ⟨1, 0, 4⟩ (resolvedStart ⟨1, 0, 4⟩ 3 (some [[4, 4, 4]]))
          MaskArg.none) (⟨1, 0, 4⟩ : Params).maskTok
      = some [[4, 4, 4]]) ∧
    generateRun ⟨1, 0, 4⟩ gammaOneSub (TempArg.float 8) 3 0 (some [[4, 4, 4]])
        MaskArg.none [] = Except.error GenErr.nameError :=
  ⟨by decide, c9_no_validation ⟨1, 0, 4⟩ gammaOneSub 8 3 (some [[4, 4, 4]])
    MaskArg.none [] [[4, 4, 4]] (by decide)⟩

/-- C9 counterexample: a 3-dimensional mask whose time dimension disagrees
with the grid (`(2, 1)` against a `(2, 2)` grid) raises no error at all —
torch broadcasting stretches it and `generate` decodes to completion, so the
claimed pre-loop shape failure does not happen. -/
theorem c9_silent_shape_counterexample :
    ((resolveMask ⟨2, 1, 4⟩ (resolvedStart ⟨2, 1, 4⟩ 2 (some [[0, 0], [4, 4]]))
        (MaskArg.dim3 [[0], [1]])).map List.length = [1, 1] ∧
      (resolvedStart ⟨2, 1, 4⟩ 2 (some [[0, 0], [4, 4]])).map List.length
        = [2, 2]) ∧
    isOkE (generateRun ⟨2, 1, 4⟩ gammaOneSub (TempArg.float 8) 2 1
        (some [[0, 0], [4, 4]]) (MaskArg.dim3 [[0], [1]])
        [⟨[2, 3], [0, 0]⟩]) = true ∧
    (runOf (generateRun ⟨2, 1, 4⟩ gammaOneSub (TempArg.float 8) 2 1
        (some [[0, 0], [4, 4]]) (MaskArg.dim3 [[0], [1]])
        [⟨[2, 3], [0, 0]⟩])).trace.length = 1 := by
  exact ⟨⟨by decide, by decide⟩, by decide, by decide⟩

/-- C10: `assert isinstance(temperature, float)` on line 164 rejects every
non-float `temperature` — the advertised tuple form and plain ints included —
before the initial grid is resolved or any step runs. -/
theorem c10_temperature_assert (P : Params) (gamma : ℚ → ℚ) (temp : TempArg)
    (timeSteps samplingSteps : ℕ) (startT : Option (List (List ℤ)))
    (mA : MaskArg) (oracles : List StepOracle)
    (h : temp.isFloat = false) :
    generateRun P gamma temp timeSteps samplingSteps startT mA oracles
      = Except.error GenErr.assertionError := by
  simp only [generateRun]
  rw [if_pos h]

/-- Witness for `c10_temperature_assert`: the tuple form from the signature
annotation. -/
theorem c10_temperature_assert_witness :
    (TempArg.pair 8 1).isFloat = false ∧
    generateRun ⟨1, 0, 4⟩ gammaOneSub (TempArg.pair 8 1) 3 2 (some [[4, 4, 4]])
        MaskArg.none [] = Except.error GenErr.assertionError :=
  ⟨by decide, c10_temperature_assert ⟨1, 0, 4⟩ gammaOneSub (TempArg.pair 8 1)
    3 2 (some [[4, 4, 4]]) MaskArg.none [] (by decide)⟩

end VampNetProof
